import Mathlib

/-!
Verification of the workflow-view engine core.

The definitions below are a shallow embedding of the TypeScript sources:
- association lists model JS `Map` objects (insertion order preserved,
  `set` replaces in place);
- `WV.Value` models the JSON-like runtime values that flow through node
  settings, node results and the expression parser
  (src/core/utils/ExpressionParser, src/unnamed/part_008);
- namespace `WV.Graph` embeds the validating workflow class
  (src/src/core/abstract/BaseWorkflow.ts): addNode/addConnection with
  endpoint, port, type and cycle validation, the Kahn topological sort
  `getExecutionOrder`, and the sequential execution engine;
- namespace `WV.Ser` embeds the serializer-era classes
  (src/src/core/utils/WorkflowSerializer.ts together with the concrete
  BaseWorkflow/BaseNode of that snapshot): toJSON / fromJSON and the
  node-type registry;
- namespace `WV.Tool` embeds ToolManager.executeTool
  (src/src/core/types/Tool.ts).
-/

namespace WV

/-! Association lists as a model of JS `Map` / plain records.
`alSet` mirrors `Map.set` / property assignment: an existing key keeps its
position and gets the new value, a fresh key is appended. -/

def alGet {α : Type} : List (String × α) → String → Option α
  | [], _ => none
  | (k, v) :: rest, key => if k = key then some v else alGet rest key

def alSet {α : Type} : List (String × α) → String → α → List (String × α)
  | [], key, v => [(key, v)]
  | (k, w) :: rest, key, v =>
    if k = key then (k, v) :: rest else (k, w) :: alSet rest key v

def alKeys {α : Type} (m : List (String × α)) : List String :=
  m.map Prod.fst

def alValues {α : Type} (m : List (String × α)) : List α :=
  m.map Prod.snd

/-- Update the value at a key when it is present, keep the map unchanged
otherwise.  Models in-place mutation of a value already held by a JS map
(the sources only do this for keys the graph invariant guarantees to be
present). -/
def alUpdate {α : Type} : List (String × α) → String → (α → α) → List (String × α)
  | [], _, _ => []
  | (k, v) :: rest, key, f =>
    if k = key then (k, f v) :: rest else (k, v) :: alUpdate rest key f

/-! The JS value model.  `vUndefined` is JavaScript `undefined` (the result of
reading a missing property); settings and serialized payloads are built
from the other constructors. -/

inductive Value : Type where
  | vUndefined : Value
  | vNull : Value
  | vBool : Bool → Value
  | vInt : Int → Value
  | vStr : String → Value
  | vArr : List Value → Value
  | vObj : List (String × Value) → Value

/-- Recognizer for the `undefined` value. -/
def isUndef : Value → Bool
  | .vUndefined => true
  | _ => false

/-- JS truthiness: `undefined`, `null`, `false`, `0` and the empty string
are falsy, everything else (including every object and array) is truthy. -/
def truthy : Value → Bool
  | .vUndefined => false
  | .vNull => false
  | .vBool b => b
  | .vInt n => n != 0
  | .vStr s => s ≠ ""
  | .vArr _ => true
  | .vObj _ => true

/-- Decimal digit-string parser (on the character list, so that proofs can
evaluate it). -/
def decToNat? (l : List Char) : Option Nat :=
  if l ≠ [] ∧ l.all (fun c => c.isDigit) then
    some (l.foldl (fun acc c => acc * 10 + (c.toNat - 48)) 0)
  else none

/-- Canonical array index: JS property lookup `arr[k]` hits an element only
when `k` is the canonical decimal string of an index. -/
def natKey (k : String) : Option Nat :=
  match decToNat? k.data with
  | some n => if toString n = k then some n else none
  | none => none

/-- Property read `v[k]` as performed by the sources on objects, arrays and
strings; every other receiver yields `undefined`. -/
def getProp : Value → String → Value
  | .vObj fields, k => (alGet fields k).getD .vUndefined
  | .vArr xs, k =>
    if k = "length" then .vInt xs.length
    else
      match natKey k with
      | some i => (xs.get? i).getD .vUndefined
      | none => .vUndefined
  | .vStr s, k =>
    if k = "length" then .vInt s.length
    else
      match natKey k with
      | some i =>
        match s.data.get? i with
        | some c => .vStr (String.mk [c])
        | none => .vUndefined
      | none => .vUndefined
  | _, _ => .vUndefined

/-! JSON.stringify on the value model (used by ExpressionParser.toString for
structured values).  `undefined` becomes `null` inside an array and the
whole field is skipped inside an object, as in JS. -/

def escapeChar (c : Char) : List Char :=
  if c = '"' then ['\\', '"']
  else if c = '\\' then ['\\', '\\']
  else if c = '\n' then ['\\', 'n']
  else if c = '\r' then ['\\', 'r']
  else if c = '\t' then ['\\', 't']
  else if c.toNat < 32 then
    let hex := Nat.toDigits 16 c.toNat
    let pad := List.replicate (4 - hex.length) '0' ++ hex
    '\\' :: 'u' :: pad
  else [c]

def escapeString (s : String) : String :=
  String.mk ('"' :: (s.data.flatMap escapeChar) ++ ['"'])

mutual

def jsonStringify : Value → String
  | .vUndefined => ""
  | .vNull => "null"
  | .vBool b => if b then "true" else "false"
  | .vInt n => toString n
  | .vStr s => escapeString s
  | .vArr xs => "[" ++ String.intercalate "," (jsonStringifyElems xs) ++ "]"
  | .vObj fs => "\x7b" ++ String.intercalate "," (jsonStringifyFields fs) ++ "\x7d"

def jsonStringifyElems : List Value → List String
  | [] => []
  | v :: rest =>
    (if isUndef v then "null" else jsonStringify v) :: jsonStringifyElems rest

def jsonStringifyFields : List (String × Value) → List String
  | [] => []
  | (k, v) :: rest =>
    if isUndef v then jsonStringifyFields rest
    else (escapeString k ++ ":" ++ jsonStringify v) :: jsonStringifyFields rest

end

/-- ExpressionParser.toString: null/undefined give the empty string, strings
pass through, objects are JSON-serialized, other primitives go through
String(.). -/
def jsToString : Value → String
  | .vUndefined => ""
  | .vNull => ""
  | .vStr s => s
  | .vArr xs => jsonStringify (.vArr xs)
  | .vObj fs => jsonStringify (.vObj fs)
  | .vBool b => if b then "true" else "false"
  | .vInt n => toString n

/-! The expression parser (ExpressionParser in src/unnamed/part_008). -/

/-- ExpressionContext: all four members are optional in the TS interface. -/
structure ExprContext : Type where
  previousResults : Option (List (String × Value)) := none
  currentInputs : Option Value := none
  currentSettings : Option Value := none
  executionContext : Option Value := none

/-- Whitespace removed by `String.prototype.trim` (ASCII portion). -/
def isJsWs (c : Char) : Bool :=
  c = ' ' || c = '\t' || c = '\n' || c = '\r' ||
  c = (Char.ofNat 11) || c = (Char.ofNat 12)

def jsTrimList (l : List Char) : List Char :=
  ((l.dropWhile isJsWs).reverse.dropWhile isJsWs).reverse

def jsTrim (s : String) : String :=
  String.mk (jsTrimList s.data)

/-- JS `str.split(sep)` for a one-character separator: every occurrence
splits, empty pieces are kept, the empty string yields `[""]`. -/
def splitOnCharAux (sep : Char) : List Char → List Char → List String
  | [], acc => [String.mk acc.reverse]
  | c :: rest, acc =>
    if c = sep then String.mk acc.reverse :: splitOnCharAux sep rest []
    else splitOnCharAux sep rest (c :: acc)

def splitOnChar (sep : Char) (s : String) : List String :=
  splitOnCharAux sep s.data []

/-- JS `str.startsWith(pre)` (on the character list). -/
def startsWithL (pre s : String) : Bool :=
  pre.data.isPrefixOf s.data

/-- JS `str.substring(n)` (on the character list). -/
def dropL (s : String) (n : Nat) : String :=
  String.mk (s.data.drop n)

/-- ExpressionParser.getValueByPath: walk the dot path, returning the empty
string as soon as the current value is null/undefined or not an object. -/
def getValueByPath : Value → List String → Value
  | current, [] => current
  | current, key :: rest =>
    match current with
    | .vArr xs => getValueByPath (getProp (.vArr xs) key) rest
    | .vObj fs => getValueByPath (getProp (.vObj fs) key) rest
    | _ => .vStr ""

/-- ExpressionParser.evaluateSimpleExpression: dispatch on the four
recognized prefixes; anything else evaluates to the expression text
itself. -/
def evaluateSimpleExpression (expression : String) (ctx : ExprContext) : Value :=
  if startsWithL "$result." expression then
    let path := dropL expression 8
    let parts := splitOnChar '.' path
    if parts.length < 2 then .vStr ""
    else
      let nodeId := parts.headD ""
      match ctx.previousResults.bind (fun m => alGet m nodeId) with
      | none => .vStr ""
      | some nodeResult =>
        if truthy nodeResult then getValueByPath nodeResult parts.tail
        else .vStr ""
  else if startsWithL "$input." expression then
    let path := dropL expression 7
    match ctx.currentInputs with
    | none => .vStr ""
    | some v =>
      if truthy v then getValueByPath v (splitOnChar '.' path) else .vStr ""
  else if startsWithL "$context." expression then
    let path := dropL expression 9
    match ctx.executionContext with
    | none => .vStr ""
    | some v =>
      if truthy v then getValueByPath v (splitOnChar '.' path) else .vStr ""
  else if startsWithL "$settings." expression then
    let path := dropL expression 10
    match ctx.currentSettings with
    | none => .vStr ""
    | some v =>
      if truthy v then getValueByPath v (splitOnChar '.' path) else .vStr ""
  else .vStr expression

/-- Test whether the pattern occurs as a contiguous run (String.includes). -/
def hasSub (pat : List Char) : List Char → Bool
  | [] => pat.isPrefixOf []
  | c :: rest => pat.isPrefixOf (c :: rest) || hasSub pat rest

/-- Left-to-right scan of `str.replace(/\x7b\x7b([^}]+)\x7d\x7d/g, ...)`:
at each position a span opens with two braces, takes a maximal nonempty run
of non-brace characters and closes with two braces; a matched span is
replaced by the stringified evaluation of its trimmed content, a failed
attempt advances one character.  The fuel argument makes the recursion
structural; every recursive call shortens the list, so with fuel at least
the list length (as `scanReplace` passes) the zero-fuel case never
fires. -/
def scanReplaceF (ctx : ExprContext) : Nat → List Char → List Char
  | 0, l => l
  | _ + 1, [] => []
  | fuel + 1, '{' :: '{' :: rest =>
    let content := rest.takeWhile (fun c => c ≠ '}')
    let after := rest.drop content.length
    if content.length ≠ 0 ∧ after.take 2 = ['}', '}'] then
      (jsToString (evaluateSimpleExpression (jsTrim (String.mk content)) ctx)).data
        ++ scanReplaceF ctx fuel (after.drop 2)
    else
      '{' :: scanReplaceF ctx fuel ('{' :: rest)
  | fuel + 1, c :: rest => c :: scanReplaceF ctx fuel rest

def scanReplace (ctx : ExprContext) (l : List Char) : List Char :=
  scanReplaceF ctx l.length l

/-- ExpressionParser.parseString: untouched unless the string contains both
delimiters, otherwise the global-replace scan. -/
def parseString (str : String) (ctx : ExprContext) : String :=
  if hasSub "\x7b\x7b".data str.data ∧ hasSub "\x7d\x7d".data str.data then
    String.mk (scanReplace ctx str.data)
  else str

mutual

/-- ExpressionParser.deepParseExpressions: strings are parsed, arrays and
objects are rebuilt with parsed members, every other value passes
through. -/
def deepParseExpressions : Value → ExprContext → Value
  | .vStr s, ctx => .vStr (parseString s ctx)
  | .vArr xs, ctx => .vArr (deepParseList xs ctx)
  | .vObj fs, ctx => .vObj (deepParseFields fs ctx)
  | v, _ => v

def deepParseList : List Value → ExprContext → List Value
  | [], _ => []
  | v :: rest, ctx => deepParseExpressions v ctx :: deepParseList rest ctx

def deepParseFields : List (String × Value) → ExprContext → List (String × Value)
  | [], _ => []
  | (k, v) :: rest, ctx => (k, deepParseExpressions v ctx) :: deepParseFields rest ctx

end

/-- A string free of both expression delimiters. -/
def strNoDelims (s : String) : Bool :=
  !hasSub "\x7b\x7b".data s.data && !hasSub "\x7d\x7d".data s.data

mutual

/-- Every string value in the tree is free of expression delimiters. -/
def valueNoDelims : Value → Bool
  | .vStr s => strNoDelims s
  | .vArr xs => listNoDelims xs
  | .vObj fs => fieldsNoDelims fs
  | _ => true

def listNoDelims : List Value → Bool
  | [] => true
  | v :: rest => valueNoDelims v && listNoDelims rest

def fieldsNoDelims : List (String × Value) → Bool
  | [] => true
  | (_, v) :: rest => valueNoDelims v && fieldsNoDelims rest

end

namespace Graph

/-! Embedding of the validating workflow snapshot
(src/src/core/abstract/BaseWorkflow.ts, first class in the file, together
with its port-carrying BaseNode companion). -/

/-- A node port; `validateConnection` and `isInputCompatible` only consult
its semantic `type` tag. -/
structure Port : Type where
  id : String
  type : String
deriving DecidableEq, Repr

structure GNodeConfig : Type where
  id : String
  name : String := ""
  type : String := ""
deriving DecidableEq, Repr

/-- Per-node execution status maintained by `safeExecute`. -/
inductive NodeStatus : Type where
  | idle
  | running
  | completed
  | error
deriving DecidableEq, Repr

structure NodeExecutionResult : Type where
  success : Bool
  data : Option Value := none
  error : Option String := none

structure ExecCtx : Type where
  workflowId : String
  nodeId : String
  executionId : String
  previousResults : List (String × Value)
  metadata : List (String × Value)

/-- A node of the validating snapshot.  The abstract `execute` method
(together with the input/output validation and hooks wrapped around it by
`safeExecute`, whose exceptions `safeExecute` converts into failed
results) is embedded as the total function `run`. -/
structure GNode : Type where
  config : GNodeConfig
  inputPorts : List (String × Port)
  outputPorts : List (String × Port)
  run : List (String × Value) → ExecCtx → NodeExecutionResult

/-- BaseNode.isInputCompatible. -/
def isInputCompatible (n : GNode) (portId : String) (sourcePort : Port) : Bool :=
  match alGet n.inputPorts portId with
  | none => false
  | some inputPort =>
    inputPort.type = sourcePort.type || sourcePort.type = "any" || inputPort.type = "any"

/-- WorkflowConnection of the validating snapshot (the optional
type/condition/metadata members are never read by the embedded methods). -/
structure Conn : Type where
  id : String
  sourceNodeId : String
  sourcePortId : String
  targetNodeId : String
  targetPortId : String
deriving DecidableEq, Repr

structure WorkflowConfig : Type where
  id : String
  name : String
deriving DecidableEq, Repr

/-- The graph state owned by BaseWorkflow: node and connection maps. -/
structure Workflow : Type where
  config : WorkflowConfig
  nodes : List (String × GNode)
  connections : List (String × Conn)

def nodeIds (w : Workflow) : List String :=
  alKeys w.nodes

/-- BaseWorkflow.addNode: duplicate ids are rejected. -/
def addNode (w : Workflow) (n : GNode) : Except String Unit × Workflow :=
  if (alGet w.nodes n.config.id).isSome then
    (.error ("Node with id '" ++ n.config.id ++ "' already exists in workflow"), w)
  else
    (.ok (), { w with nodes := alSet w.nodes n.config.id n })

/-- An edge of the connection set: some connection goes from `a` to `b`. -/
def connStep (conns : List Conn) (a b : String) : Prop :=
  ∃ c, c ∈ conns ∧ c.sourceNodeId = a ∧ c.targetNodeId = b

/-- The connection set contains a directed cycle. -/
def HasCycle (conns : List Conn) : Prop :=
  ∃ a, Relation.TransGen (connStep conns) a a

/-- State of the depth-first search of `wouldCreateCycle`: the `visited`
set and the recursion stack, both keyed by node id. -/
structure DfsSt : Type where
  visited : List String
  stack : List String
deriving DecidableEq, Repr

/-- Targets of all connections leaving `u`, in connection-map order. -/
def successors (conns : List Conn) (u : String) : List String :=
  (conns.filter (fun c => c.sourceNodeId = u)).map (fun c => c.targetNodeId)

mutual

/-- One `hasCycleDFS` call.  The fuel bounds the recursion depth; it is
decremented only when a call expands into its successors, so any fuel
larger than the node count is never exhausted — if it ever were, the
search conservatively reports a cycle. -/
def visit (conns : List Conn) (fuel : Nat) (st : DfsSt) (u : String) : Bool × DfsSt :=
  match fuel with
  | 0 => (true, st)
  | fuel' + 1 =>
    if u ∈ st.stack then (true, st)
    else if u ∈ st.visited then (false, st)
    else
      let st1 : DfsSt := ⟨st.visited ++ [u], st.stack ++ [u]⟩
      match visitFold conns fuel' (successors conns u) st1 with
      | (true, st2) => (true, st2)
      | (false, st2) => (false, ⟨st2.visited, st2.stack.erase u⟩)
termination_by (fuel, 0)

/-- The loop over the successors of the node being expanded; a positive
answer returns immediately (leaving the recursion stack as is, exactly as
the early `return true` does). -/
def visitFold (conns : List Conn) (fuel : Nat) (ts : List String) (st : DfsSt) : Bool × DfsSt :=
  match ts with
  | [] => (false, st)
  | t :: rest =>
    match visit conns fuel st t with
    | (true, st2) => (true, st2)
    | (false, st2) => visitFold conns fuel rest st2
termination_by (fuel, ts.length + 1)

end

/-- A node that the search has fully processed: visited and no longer on
the recursion stack. -/
def IsBlack (st : DfsSt) (x : String) : Prop :=
  x ∈ st.visited ∧ x ∉ st.stack

/-- Invariant of the cycle search: the stack holds visited nodes, the set
of fully processed nodes is closed under edges, and no fully processed
node lies on a cycle. -/
def DfsInv (conns : List Conn) (st : DfsSt) : Prop :=
  (∀ x ∈ st.stack, x ∈ st.visited) ∧
  (∀ x, IsBlack st x → ∀ y, connStep conns x y → IsBlack st y) ∧
  (∀ x, IsBlack st x → ¬ Relation.TransGen (connStep conns) x x)

/-- The outer loop of `wouldCreateCycle`: start a search from every not yet
visited node, in node-map order. -/
def dfsAll (conns : List Conn) (fuel : Nat) : List String → DfsSt → Bool
  | [], _ => false
  | id :: rest, st =>
    if id ∈ st.visited then dfsAll conns fuel rest st
    else
      match visit conns fuel st id with
      | (true, _) => true
      | (false, st2) => dfsAll conns fuel rest st2

/-- BaseWorkflow.wouldCreateCycle: depth-first search over the current
connections plus the candidate edge, rooted at every node. -/
def wouldCreateCycle (w : Workflow) (c : Conn) : Bool :=
  let temp := alSet w.connections c.id c
  dfsAll (alValues temp) (w.nodes.length + 1) (nodeIds w) ⟨[], []⟩

/-- BaseWorkflow.validateConnection, checks in source order: endpoint
existence, port existence, type compatibility, cycle freedom. -/
def validateConnection (w : Workflow) (c : Conn) : Except String Unit :=
  match alGet w.nodes c.sourceNodeId with
  | none => .error ("Source node '" ++ c.sourceNodeId ++ "' not found")
  | some sourceNode =>
    match alGet w.nodes c.targetNodeId with
    | none => .error ("Target node '" ++ c.targetNodeId ++ "' not found")
    | some targetNode =>
      match alGet sourceNode.outputPorts c.sourcePortId with
      | none =>
        .error ("Output port '" ++ c.sourcePortId ++ "' not found on node '"
          ++ c.sourceNodeId ++ "'")
      | some sourcePort =>
        match alGet targetNode.inputPorts c.targetPortId with
        | none =>
          .error ("Input port '" ++ c.targetPortId ++ "' not found on node '"
            ++ c.targetNodeId ++ "'")
        | some targetPort =>
          if ¬ isInputCompatible targetNode c.targetPortId sourcePort then
            .error ("Type mismatch: Cannot connect " ++ sourcePort.type
              ++ " to " ++ targetPort.type)
          else if wouldCreateCycle w c then
            .error "Connection would create a cycle in the workflow"
          else .ok ()

/-- BaseWorkflow.addConnection.  The pair returned is (outcome, state of
the workflow after the call): every validation failure throws before the
single mutation, so the state is returned unchanged on the error path. -/
def addConnection (w : Workflow) (c : Conn) : Except String Unit × Workflow :=
  match validateConnection w c with
  | .error e => (.error e, w)
  | .ok () =>
    if (alGet w.connections c.id).isSome then
      (.error ("Connection with id '" ++ c.id ++ "' already exists"), w)
    else
      (.ok (), { w with connections := alSet w.connections c.id c })

/-! Kahn topological sort (BaseWorkflow.getExecutionOrder). -/

/-- In-degree map and adjacency map as built by the two initialization
loops and the loop over the connections.  In-degrees are JS numbers,
modelled as integers. -/
def buildGraph (ids : List String) (conns : List Conn) :
    List (String × Int) × List (String × List String) :=
  conns.foldl
    (fun acc c =>
      (alUpdate acc.1 c.targetNodeId (fun d => d + 1),
       alUpdate acc.2 c.sourceNodeId (fun l => l ++ [c.targetNodeId])))
    (ids.map (fun i => (i, (0 : Int))), ids.map (fun i => (i, ([] : List String))))

/-- Body of the inner for-loop of the Kahn sort: decrement the neighbor's
in-degree and enqueue it when the new value is zero. -/
def kahnStep (acc : List (String × Int) × List String) (t : String) :
    List (String × Int) × List String :=
  let d := (alGet acc.1 t).getD 0 - 1
  (alSet acc.1 t d, if d = 0 then acc.2 ++ [t] else acc.2)

/-- The while loop of the Kahn sort: dequeue from the front, append to the
result, decrement the in-degree of each neighbor and enqueue those that
reach zero.  The fuel dominates the loop count; exhaustion is unreachable
for the fuel chosen by `getExecutionOrder`. -/
def kahnLoop (adj : List (String × List String)) :
    Nat → List (String × Int) → List String → List String → List String
  | 0, _, _, result => result
  | _ + 1, _, [], result => result
  | fuel + 1, deg, current :: queue, result =>
    let ns := (alGet adj current).getD []
    let next := ns.foldl kahnStep (deg, queue)
    kahnLoop adj fuel next.1 next.2 (result ++ [current])

/-- Number of connections into `u` whose source has not been emitted yet —
the quantity the in-degree map tracks during the Kahn sort. -/
def remCount (conns : List Conn) (result : List String) (u : String) : Nat :=
  (conns.filter (fun c =>
    decide (c.targetNodeId = u ∧ c.sourceNodeId ∉ result))).length

/-- Invariant of the Kahn loop state (in-degree map, queue, emitted
prefix) over a fixed node-id list and connection list. -/
structure KahnInv (conns : List Conn) (ids : List String)
    (deg : List (String × Int)) (queue result : List String) : Prop where
  degKeys : alKeys deg = ids
  degSpec : ∀ u ∈ ids, alGet deg u = some (remCount conns result u : Int)
  resSub : ∀ x ∈ result, x ∈ ids
  queueSub : ∀ x ∈ queue, x ∈ ids
  nodupRQ : (result ++ queue).Nodup
  zeroIff : ∀ u ∈ ids, (u ∈ result ∨ u ∈ queue) ↔ remCount conns result u = 0
  ordered : ∀ c ∈ conns, c.targetNodeId ∈ result →
    c.sourceNodeId ∈ result ∧
    result.indexOf c.sourceNodeId < result.indexOf c.targetNodeId

/-- What holds of the list the Kahn loop finally returns. -/
structure KahnEnd (conns : List Conn) (ids : List String)
    (final : List String) : Prop where
  nodup : final.Nodup
  sub : ∀ x ∈ final, x ∈ ids
  memIff : ∀ u ∈ ids, u ∈ final ↔ remCount conns final u = 0
  ordered : ∀ c ∈ conns, c.targetNodeId ∈ final →
    c.sourceNodeId ∈ final ∧
    final.indexOf c.sourceNodeId < final.indexOf c.targetNodeId

/-- BaseWorkflow.getExecutionOrder: Kahn sort; a result shorter than the
node count means a cycle and throws. -/
def getExecutionOrder (w : Workflow) : Except String (List String) :=
  let ids := nodeIds w
  let conns := alValues w.connections
  let dg := buildGraph ids conns
  let queue := (dg.1.filter (fun p => p.2 = 0)).map Prod.fst
  let result := kahnLoop dg.2 (ids.length + conns.length + 1) dg.1 queue []
  if result.length ≠ ids.length then
    .error "Workflow contains cycles and cannot be executed"
  else .ok result

/-! The execution engine (BaseWorkflow.execute). -/

/-- BaseWorkflow.validate: an empty workflow throws; isolated nodes only
produce a console warning; every stored connection is re-validated. -/
def validateWorkflow (w : Workflow) : Except String Unit :=
  if w.nodes.length = 0 then .error "Workflow must contain at least one node"
  else
    (alValues w.connections).foldl
      (fun acc c =>
        match acc with
        | .error e => .error e
        | .ok () => validateConnection w c)
      (.ok ())

/-- Default BaseWorkflow.shouldStopOnError: always stop. -/
def shouldStopOnError (_nodeId : String) (_error : String) : Bool :=
  true

/-- BaseWorkflow.collectNodeInputs: for every connection targeting the
node, pull the source port field from the recorded output of the source
node when that output exists and the field is defined. -/
def collectNodeInputs (w : Workflow) (nid : String)
    (prev : List (String × Value)) : List (String × Value) :=
  (alValues w.connections).foldl
    (fun inputs c =>
      if c.targetNodeId = nid then
        match alGet prev c.sourceNodeId with
        | none => inputs
        | some sourceResult =>
          if truthy sourceResult ∧ ¬ isUndef (getProp sourceResult c.sourcePortId) then
            alSet inputs c.targetPortId (getProp sourceResult c.sourcePortId)
          else inputs
      else inputs)
    []

/-- Engine state threaded through the node loop; `statuses` models the
per-node `status` fields mutated by `safeExecute`, `stopped` records that
the loop was broken by the error policy. -/
structure EngineState : Type where
  results : List (String × NodeExecutionResult)
  prevResults : List (String × Value)
  errors : List (String × String)
  statuses : List (String × NodeStatus)
  stopped : Bool

/-- Execute one node (BaseNode.safeExecute within the engine loop):
status goes to running, the embedded behavior runs, status settles to
completed or error. -/
def stepNode (w : Workflow) (execId : String) (node : GNode) (nid : String)
    (st : EngineState) : NodeExecutionResult × EngineState :=
  let ctx : ExecCtx :=
    { workflowId := w.config.id, nodeId := nid, executionId := execId,
      previousResults := st.prevResults, metadata := [] }
  let inputs := collectNodeInputs w nid st.prevResults
  let result := node.run inputs ctx
  let statuses := alSet st.statuses nid (if result.success then .completed else .error)
  (result, { st with statuses := statuses })

/-- The node loop of BaseWorkflow.execute: record every result, push an
error entry and (under the default policy) break on failure, publish the
output on success. -/
def execLoop (w : Workflow) (execId : String) : List String → EngineState → EngineState
  | [], st => st
  | nid :: rest, st =>
    match alGet w.nodes nid with
    | none => execLoop w execId rest st
    | some node =>
      let step := stepNode w execId node nid st
      let result := step.1
      let st1 := { step.2 with results := alSet step.2.results nid result }
      if result.success then
        execLoop w execId rest
          { st1 with prevResults := alSet st1.prevResults nid (result.data.getD .vUndefined) }
      else
        let st2 := { st1 with errors := st1.errors ++ [(nid, (result.error.getD ""))] }
        if shouldStopOnError nid (result.error.getD "") then
          { st2 with stopped := true }
        else execLoop w execId rest st2

inductive RunStatus : Type where
  | completed
  | error
deriving DecidableEq, Repr

/-- Outcome of one run: overall status, result map, error list and the
final node statuses. -/
structure RunRecord : Type where
  status : RunStatus
  results : List (String × NodeExecutionResult)
  errors : List (String × String)
  nodeStatuses : List (String × NodeStatus)

def initialEngineState (w : Workflow) : EngineState :=
  { results := [], prevResults := [], errors := [],
    statuses := w.nodes.map (fun p => (p.1, NodeStatus.idle)), stopped := false }

/-- BaseWorkflow.execute with default options: validate, compute the
order, run the loop; a validation or ordering throw is caught and recorded
as a workflow-level error. -/
def executeWorkflow (w : Workflow) (execId : String) : RunRecord :=
  let st0 := initialEngineState w
  match validateWorkflow w with
  | .error e =>
    { status := .error, results := [], errors := [("workflow", e)],
      nodeStatuses := st0.statuses }
  | .ok () =>
    match getExecutionOrder w with
    | .error e =>
      { status := .error, results := [], errors := [("workflow", e)],
        nodeStatuses := st0.statuses }
    | .ok order =>
      let fin := execLoop w execId order st0
      { status := if fin.stopped then .error else .completed,
        results := fin.results, errors := fin.errors,
        nodeStatuses := fin.statuses }

/-- Both endpoints of every stored connection refer to existing nodes —
the invariant `validateConnection` establishes at insertion time. -/
def ValidEndpoints (w : Workflow) : Prop :=
  ∀ c ∈ alValues w.connections, c.sourceNodeId ∈ nodeIds w ∧ c.targetNodeId ∈ nodeIds w

/-- The result the engine would compute at step `j` of the order (used to
phrase "the j-th node succeeds/fails during the run"). -/
def stepStateAt (w : Workflow) (execId : String) (order : List String) (j : Nat) :
    EngineState :=
  execLoop w execId (order.take j) (initialEngineState w)

/-- Success flag of the node executed at position `j` of the order, given
the run prefix before it; positions past the end count as successes. -/
def stepOk (w : Workflow) (execId : String) (order : List String) (j : Nat) : Bool :=
  match order.get? j with
  | none => true
  | some nid =>
    match alGet w.nodes nid with
    | none => true
    | some node => (stepNode w execId node nid (stepStateAt w execId order j)).1.success

end Graph

namespace Ser

/-! Embedding of the serializer snapshot
(src/src/core/utils/WorkflowSerializer.ts with the concrete
BaseWorkflow/BaseNode of that era: config `{id,name,type}` per node, an
`originalSettings` copy, unvalidated addNode/addConnection). -/

structure NodeConfig : Type where
  id : String
  name : String
  type : String

/-- Serializer-era BaseNode state: resolved settings plus the preserved
raw settings. -/
structure SNode : Type where
  config : NodeConfig
  settings : Value
  originalSettings : Value

/-- Serializer-era WorkflowConnection, with the optional branch index. -/
structure SConn : Type where
  id : String
  sourceNodeId : String
  targetNodeId : String
  branchIndex : Option Int := none
deriving DecidableEq, Repr

structure SWorkflowConfig : Type where
  id : String
  name : String
deriving DecidableEq, Repr

structure SWorkflow : Type where
  config : SWorkflowConfig
  nodes : List (String × SNode)
  connections : List (String × SConn)

/-- Serializer-era BaseWorkflow.addNode: plain map insertion. -/
def addNodeS (w : SWorkflow) (n : SNode) : SWorkflow :=
  { w with nodes := alSet w.nodes n.config.id n }

/-- Serializer-era BaseWorkflow.addConnection: plain map insertion. -/
def addConnectionS (w : SWorkflow) (c : SConn) : SWorkflow :=
  { w with connections := alSet w.connections c.id c }

mutual

/-- WorkflowSerializer.deepClone: structural copy (primitives returned as
is, arrays and plain objects rebuilt member by member). -/
def deepClone : Value → Value
  | .vArr xs => .vArr (deepCloneList xs)
  | .vObj fs => .vObj (deepCloneFields fs)
  | v => v

def deepCloneList : List Value → List Value
  | [] => []
  | v :: rest => deepClone v :: deepCloneList rest

def deepCloneFields : List (String × Value) → List (String × Value)
  | [] => []
  | (k, v) :: rest => (k, deepClone v) :: deepCloneFields rest

end

mutual

/-- JSON.parse(JSON.stringify(v)) as used by the serializer-era BaseNode
constructor to snapshot the raw settings: `undefined` array elements
become `null`, `undefined` object fields are dropped, everything else is
copied structurally. -/
def jsonRoundtrip : Value → Value
  | .vUndefined => .vUndefined
  | .vArr xs => .vArr (jsonRoundtripList xs)
  | .vObj fs => .vObj (jsonRoundtripFields fs)
  | v => v

def jsonRoundtripList : List Value → List Value
  | [] => []
  | v :: rest =>
    (if isUndef v then .vNull else jsonRoundtrip v) :: jsonRoundtripList rest

def jsonRoundtripFields : List (String × Value) → List (String × Value)
  | [] => []
  | (k, v) :: rest =>
    if isUndef v then jsonRoundtripFields rest
    else (k, jsonRoundtrip v) :: jsonRoundtripFields rest

end

/-- Object spread `{...base, ...override}`: base keys first (overridden
values where present), then the fresh override keys. -/
def objSpreadFields (df sf : List (String × Value)) : List (String × Value) :=
  df.map (fun p => (p.1, (alGet sf p.1).getD p.2))
    ++ sf.filter (fun p => (alGet df p.1).isNone)

def objSpread (base override : Value) : Value :=
  match base, override with
  | .vObj df, .vObj sf => .vObj (objSpreadFields df sf)
  | _, _ => override

/-- Serializer-era BaseNode construction from (id, settings): fixed name
and type tag, settings stored as given, raw copy via the JSON round
trip. -/
def mkSimpleNode (name ty : String) (id : String) (settings : Value) : SNode :=
  { config := { id := id, name := name, type := ty },
    settings := settings,
    originalSettings := jsonRoundtrip settings }

/-- Default settings of HttpRequestNode (src/src/core/nodes/HttpRequestNode.ts);
its constructor spreads the given settings over these defaults. -/
def httpDefaults : Value :=
  .vObj
    [("timeout", .vInt 30000),
     ("followRedirects", .vBool true),
     ("validateSSL", .vBool true),
     ("retryCount", .vInt 0),
     ("retryDelay", .vInt 1000),
     ("defaultHeaders", .vObj [("User-Agent", .vStr "WorkflowEngine/1.0")])]

def mkHttpRequestNode (id : String) (settings : Value) : SNode :=
  let merged := objSpread httpDefaults settings
  { config := { id := id, name := "HTTP请求", type := "http-request" },
    settings := merged,
    originalSettings := jsonRoundtrip merged }

/-- NodeRegistry with the built-in types registered
(NodeRegistry.registerNodeType calls for timer-trigger, http-request,
code, agent, condition); constructor bodies follow the node classes of
the serializer-era snapshot. -/
def getNodeConstructor : String → Option (String → Value → SNode)
  | "timer-trigger" => some (mkSimpleNode "定时触发器" "timer-trigger")
  | "http-request" => some mkHttpRequestNode
  | "code" => some (mkSimpleNode "代码执行" "code")
  | "agent" => some (mkSimpleNode "AI Agent" "agent")
  | "condition" => some (mkSimpleNode "条件判断" "condition")
  | _ => none

structure SerializedNode : Type where
  config : NodeConfig
  settings : Value
  originalSettings : Value

structure SerializedMetadata : Type where
  version : String
  createdAt : String
  updatedAt : String
  description : Option String := none

structure SerializedWorkflow : Type where
  config : SWorkflowConfig
  nodes : List SerializedNode
  connections : List SConn
  metadata : Option SerializedMetadata := none

/-- WorkflowSerializer.toJSON.  The timestamp produced by `new Date()` is
passed in as `nowIso`.  Per node it emits id/name/type plus deep clones of
both settings trees; per connection it emits id, source and target only —
the branch index is not copied. -/
def toJSON (w : SWorkflow) (nowIso : String) : SerializedWorkflow :=
  { config := w.config,
    nodes := w.nodes.map (fun p =>
      { config := { id := p.1, name := p.2.config.name, type := p.2.config.type },
        settings := deepClone p.2.settings,
        originalSettings := deepClone p.2.originalSettings }),
    connections := (alValues w.connections).map (fun c =>
      { id := c.id, sourceNodeId := c.sourceNodeId, targetNodeId := c.targetNodeId,
        branchIndex := none }),
    metadata := some
      { version := "1.0.0", createdAt := nowIso, updatedAt := nowIso,
        description := some ("Serialized workflow: " ++ w.config.name) } }

/-- The node loop of WorkflowSerializer.fromJSON: resolve the constructor
by tag (throwing on an unknown tag), instantiate with the stored settings,
restore the raw settings when present (truthy), insert the node. -/
def fromJSONNodes : List SerializedNode → SWorkflow → Except String SWorkflow
  | [], w => .ok w
  | sn :: rest, w =>
    match getNodeConstructor sn.config.type with
    | none => .error ("Unknown node type: " ++ sn.config.type)
    | some ctor =>
      let node := ctor sn.config.id sn.settings
      let node1 :=
        if truthy sn.originalSettings then
          { node with originalSettings := deepClone sn.originalSettings }
        else node
      fromJSONNodes rest (addNodeS w node1)

/-- WorkflowSerializer.fromJSON: rebuild the nodes, then re-insert every
connection. -/
def fromJSON (sw : SerializedWorkflow) : Except String SWorkflow :=
  match fromJSONNodes sw.nodes { config := sw.config, nodes := [], connections := [] } with
  | .error e => .error e
  | .ok w => .ok (sw.connections.foldl addConnectionS w)

/-- Execution context of the serializer-era BaseNode. -/
structure SExecCtx : Type where
  workflowId : String
  nodeId : String
  previousResults : List (String × Value)

/-- Serializer-era BaseNode.resolveDynamicSettings: build the expression
context from the raw settings and the run data, then deep-parse the raw
settings.  The method reads `originalSettings` and writes nothing. -/
def resolveDynamicSettings (n : SNode) (inputs : Value) (c : SExecCtx) : Value :=
  let ectx : ExprContext :=
    { previousResults := some c.previousResults,
      currentInputs := some inputs,
      currentSettings := some n.originalSettings,
      executionContext := some (.vObj
        [("workflowId", .vStr c.workflowId), ("nodeId", .vStr c.nodeId)]) }
  deepParseExpressions n.originalSettings ectx

/-- The engine-side use of resolution (resolveNodeSettings in the simple
BaseWorkflow): the resolved value is written into `settings`, the raw copy
is not touched. -/
def resolveNodeSettingsStep (n : SNode) (inputs : Value) (c : SExecCtx) : SNode :=
  { n with settings := resolveDynamicSettings n inputs c }

end Ser

namespace Tool

/-! Embedding of the tool subsystem (src/src/core/types/Tool.ts). -/

structure ToolExecutionMeta : Type where
  executionTime : Int
deriving DecidableEq, Repr

structure ToolExecutionResult : Type where
  success : Bool
  data : Option Value := none
  error : Option String := none
  metadata : Option ToolExecutionMeta := none

/-- A registered tool: the zod schema parse (throwing on invalid input)
and the async callable (throwing modelled as `Except.error`). -/
structure ToolSpec : Type where
  id : String
  name : String := ""
  description : String := ""
  parseParams : Value → Except String Value
  execute : Value → Except String Value

/-- ToolManager.executeTool.  `elapsed` stands for the wall-clock
difference taken with Date.now().  An unregistered id returns early
without metadata; otherwise the schema parse and the call run inside the
timed try/catch and always produce metadata. -/
def executeTool (tools : List (String × ToolSpec)) (toolId : String)
    (input : Value) (elapsed : Int) : ToolExecutionResult :=
  match alGet tools toolId with
  | none =>
    { success := false, error := some ("Tool not found: " ++ toolId) }
  | some tool =>
    match tool.parseParams input with
    | .error e =>
      { success := false, error := some e, metadata := some { executionTime := elapsed } }
    | .ok validated =>
      match tool.execute validated with
      | .error e =>
        { success := false, error := some e, metadata := some { executionTime := elapsed } }
      | .ok data =>
        { success := true, data := some data, metadata := some { executionTime := elapsed } }

end Tool

/-- Recognizer for object values (always truthy, as any JS object is). -/
def isVObj : Value → Bool
  | .vObj _ => true
  | _ => false

/-- Recognizer for the two container shapes the path walker descends
into. -/
def isContainer : Value → Bool
  | .vArr _ => true
  | .vObj _ => true
  | _ => false

namespace Ser

/-- The node was produced by its registered constructor from its own id
and stored settings: the constructor returns its name, type and settings
unchanged (the raw-settings copy is restored separately by fromJSON). -/
def CtorFits (n : SNode) : Prop :=
  ∃ f, getNodeConstructor n.config.type = some f ∧
    (f n.config.id n.settings).config = n.config ∧
    (f n.config.id n.settings).settings = n.settings

end Ser

namespace Fix

/-! Concrete fixtures used by the witnesses. -/

open Graph

def anyIn : Port := { id := "in", type := "any" }

def anyOut : Port := { id := "out", type := "any" }

/-- A node with one `any` input port and one `any` output port and the
given behavior. -/
def mkGN (id : String)
    (run : List (String × Value) → ExecCtx → NodeExecutionResult) : GNode :=
  { config := { id := id }, inputPorts := [("in", anyIn)],
    outputPorts := [("out", anyOut)], run := run }

def nodeA : GNode :=
  mkGN "A" (fun _ _ => { success := true, data := some (.vObj [("out", .vInt 1)]) })

def nodeB : GNode :=
  mkGN "B" (fun _ _ => { success := false, error := some "boom" })

def nodeC : GNode :=
  mkGN "C" (fun _ _ => { success := true, data := some (.vObj [("out", .vInt 3)]) })

def connAB : Conn :=
  { id := "c1", sourceNodeId := "A", sourcePortId := "out",
    targetNodeId := "B", targetPortId := "in" }

def connBC : Conn :=
  { id := "c2", sourceNodeId := "B", sourcePortId := "out",
    targetNodeId := "C", targetPortId := "in" }

/-- Linear workflow A → B → C where B fails. -/
def wfLinear : Workflow :=
  { config := { id := "wf-linear", name := "Linear" },
    nodes := [("A", nodeA), ("B", nodeB), ("C", nodeC)],
    connections := [("c1", connAB), ("c2", connBC)] }

/-- One-node workflow used for the self-loop rejection scenario. -/
def wfSingle : Workflow :=
  { config := { id := "wf-single", name := "Single" },
    nodes := [("A", nodeA)], connections := [] }

def connSelf : Conn :=
  { id := "c1", sourceNodeId := "A", sourcePortId := "out",
    targetNodeId := "A", targetPortId := "in" }

open Ser

def serNode1 : SNode :=
  mkSimpleNode "代码执行" "code" "n1" (.vObj [("code", .vStr "return 1")])

def serNode2 : SNode :=
  mkSimpleNode "代码执行" "code" "n2" (.vObj [("code", .vStr "return 2")])

/-- Serializer-era workflow whose single connection carries a branch
index. -/
def serWf : SWorkflow :=
  { config := { id := "w1", name := "Demo" },
    nodes := [("n1", serNode1), ("n2", serNode2)],
    connections :=
      [("c1", { id := "c1", sourceNodeId := "n1", targetNodeId := "n2",
                branchIndex := some 1 })] }

/-- Payload containing a node with an unregistered type tag. -/
def badPayload : SerializedWorkflow :=
  { config := { id := "w2", name := "Bad" },
    nodes :=
      [{ config := { id := "n1", name := "X", type := "nonexistent-type" },
         settings := .vObj [], originalSettings := .vObj [] }],
    connections := [] }

open Tool

/-- A tool that accepts any input and echoes it. -/
def echoTool : ToolSpec :=
  { id := "echo", parseParams := fun v => .ok v, execute := fun v => .ok v }

/-- A tool whose callable throws. -/
def throwTool : ToolSpec :=
  { id := "bad", parseParams := fun v => .ok v,
    execute := fun _ => .error "exploded" }

end Fix

/-! Helper lemmas. -/

theorem takeWhile_append_all {p : Char → Bool} :
    ∀ (l1 l2 : List Char), (∀ c ∈ l1, p c = true) →
      (l1 ++ l2).takeWhile p = l1 ++ l2.takeWhile p := by
  intro l1 l2 h
  induction l1 with
  | nil => simp
  | cons c rest ih =>
    have hc : p c = true := h c (by simp)
    simp only [List.cons_append, List.takeWhile_cons, hc]
    simp [ih (fun x hx => h x (by simp [hx]))]

theorem hasSub_infix_iff (pat : List Char) :
    ∀ l : List Char, hasSub pat l = true ↔ pat <:+: l := by
  intro l
  induction l with
  | nil =>
    simp [hasSub, List.isPrefixOf_iff_prefix]
  | cons c rest ih =>
    simp only [hasSub, Bool.or_eq_true, List.isPrefixOf_iff_prefix, ih]
    constructor
    · rintro (h | h)
      · exact h.isInfix
      · exact List.infix_cons h
    · intro h
      rcases List.infix_cons_iff.mp h with h | h
      · exact Or.inl h
      · exact Or.inr h

theorem string_mk_data (s : String) : String.mk s.data = s := rfl

theorem scanReplaceF_nil (ctx : ExprContext) (fuel : Nat) :
    scanReplaceF ctx fuel [] = [] := by
  cases fuel <;> rfl

/-- A single well-formed span is replaced by the stringified evaluation of
its trimmed content. -/
theorem scanReplaceF_span (ctx : ExprContext) (fuel : Nat) (e : List Char)
    (he : e ≠ []) (hb : ∀ c ∈ e, c ≠ '}') :
    scanReplaceF ctx (fuel + 1) ('{' :: '{' :: (e ++ ['}', '}'])) =
      (jsToString (evaluateSimpleExpression (jsTrim (String.mk e)) ctx)).data := by
  have htw : (e ++ ['}', '}']).takeWhile (fun c => c ≠ '}') = e := by
    rw [takeWhile_append_all e ['}', '}'] (by intro c hc; simpa using hb c hc)]
    simp
  have hdrop : (e ++ ['}', '}']).drop e.length = ['}', '}'] := by
    simp
  rw [scanReplaceF, htw, hdrop]
  have hguard : e.length ≠ 0 ∧ (['}', '}'] : List Char).take 2 = ['}', '}'] := by
    constructor
    · simpa using he
    · rfl
  rw [if_pos hguard]
  simp [scanReplaceF_nil]

/-- The scan with the fuel used by `parseString`, on a single-span
string. -/
theorem scanReplace_span (ctx : ExprContext) (e : List Char)
    (he : e ≠ []) (hb : ∀ c ∈ e, c ≠ '}') :
    scanReplace ctx ('{' :: '{' :: (e ++ ['}', '}'])) =
      (jsToString (evaluateSimpleExpression (jsTrim (String.mk e)) ctx)).data := by
  have hlen : ('{' :: '{' :: (e ++ ['}', '}'])).length = (e.length + 3) + 1 := by
    simp

  rw [scanReplace, hlen, scanReplaceF_span ctx (e.length + 3) e he hb]

/-- parseString on a string consisting of exactly one span. -/
theorem parseString_span (ctx : ExprContext) (e : String)
    (he : e.data ≠ []) (hb : ∀ c ∈ e.data, c ≠ '}') :
    parseString ("\x7b\x7b" ++ e ++ "\x7d\x7d") ctx =
      jsToString (evaluateSimpleExpression (jsTrim e) ctx) := by
  have hdata : ("\x7b\x7b" ++ e ++ "\x7d\x7d").data = '{' :: '{' :: (e.data ++ ['}', '}']) := by
    simp [String.data_append]
  rw [parseString]
  have hop : hasSub "\x7b\x7b".data ("\x7b\x7b" ++ e ++ "\x7d\x7d").data = true := by
    rw [hasSub_infix_iff, hdata]
    exact List.infix_iff_prefix_suffix.mpr
      ⟨'{' :: '{' :: (e.data ++ ['}', '}']), by simp, List.suffix_refl _⟩
  have hcl : hasSub "\x7d\x7d".data ("\x7b\x7b" ++ e ++ "\x7d\x7d").data = true := by
    rw [hasSub_infix_iff, hdata]
    refine List.IsSuffix.isInfix ?_
    exact ⟨'{' :: '{' :: e.data, by simp⟩
  rw [if_pos ⟨hop, hcl⟩, hdata, scanReplace_span ctx e.data he hb, string_mk_data,
    string_mk_data]

/-- parseString leaves a string with no matched guard untouched. -/
theorem parseString_noDelims (s : String) (ctx : ExprContext)
    (h : strNoDelims s = true) : parseString s ctx = s := by
  rw [parseString]
  rw [strNoDelims, Bool.and_eq_true, Bool.not_eq_true', Bool.not_eq_true'] at h
  rw [if_neg]
  simp [h.1]

mutual

theorem deepParse_value_id : ∀ (v : Value) (ctx : ExprContext),
    valueNoDelims v = true → deepParseExpressions v ctx = v
  | .vUndefined, _, _ => rfl
  | .vNull, _, _ => rfl
  | .vBool _, _, _ => rfl
  | .vInt _, _, _ => rfl
  | .vStr s, ctx, h => by
    rw [deepParseExpressions, parseString_noDelims s ctx (by simpa [valueNoDelims] using h)]
  | .vArr xs, ctx, h => by
    rw [deepParseExpressions, deepParse_list_id xs ctx (by simpa [valueNoDelims] using h)]
  | .vObj fs, ctx, h => by
    rw [deepParseExpressions, deepParse_fields_id fs ctx (by simpa [valueNoDelims] using h)]

theorem deepParse_list_id : ∀ (xs : List Value) (ctx : ExprContext),
    listNoDelims xs = true → deepParseList xs ctx = xs
  | [], _, _ => rfl
  | v :: rest, ctx, h => by
    rw [listNoDelims, Bool.and_eq_true] at h
    rw [deepParseList, deepParse_value_id v ctx h.1, deepParse_list_id rest ctx h.2]

theorem deepParse_fields_id : ∀ (fs : List (String × Value)) (ctx : ExprContext),
    fieldsNoDelims fs = true → deepParseFields fs ctx = fs
  | [], _, _ => rfl
  | (k, v) :: rest, ctx, h => by
    rw [fieldsNoDelims, Bool.and_eq_true] at h
    rw [deepParseFields, deepParse_value_id v ctx h.1, deepParse_fields_id rest ctx h.2]

end

/-- Claim C6: resolveDynamicSettings reads only the raw (original) settings
and never writes them: across any number of engine resolution passes (each
of which overwrites the resolved `settings`), the raw settings tree is
unchanged and every pass returns the same freshly computed value. -/
theorem claim_C6 (n : Ser.SNode) (inputs : Value) (c : Ser.SExecCtx) (k : Nat) :
    ((fun m => Ser.resolveNodeSettingsStep m inputs c)^[k] n).originalSettings =
      n.originalSettings ∧
    Ser.resolveDynamicSettings ((fun m => Ser.resolveNodeSettingsStep m inputs c)^[k] n)
      inputs c = Ser.resolveDynamicSettings n inputs c := by
  have horig : ((fun m => Ser.resolveNodeSettingsStep m inputs c)^[k] n).originalSettings =
      n.originalSettings := by
    induction k with
    | zero => rfl
    | succ k ih =>
      rw [Function.iterate_succ_apply']
      exact ih
  refine ⟨horig, ?_⟩
  rw [Ser.resolveDynamicSettings, Ser.resolveDynamicSettings, horig]

/-- Claim C9: on a settings tree in which no string value contains an
expression delimiter, resolution is the identity, and hence resolving
twice (under any contexts) equals resolving once. -/
theorem claim_C9 (v : Value) (ctx ctx2 : ExprContext)
    (h : valueNoDelims v = true) :
    deepParseExpressions v ctx = v ∧
    deepParseExpressions (deepParseExpressions v ctx) ctx2 =
      deepParseExpressions v ctx := by
  have h1 := deepParse_value_id v ctx h
  refine ⟨h1, ?_⟩
  rw [h1, deepParse_value_id v ctx2 h]

/-- Witness for C9 at a concrete delimiter-free settings object. -/
theorem claim_C9_witness :
    deepParseExpressions (.vObj [("url", .vStr "https://x"), ("n", .vInt 5)]) {} =
      .vObj [("url", .vStr "https://x"), ("n", .vInt 5)] :=
  (claim_C9 (.vObj [("url", .vStr "https://x"), ("n", .vInt 5)]) {} {} (by decide)).1

/-- Claim C10: a span whose trimmed content starts with none of the four
recognized prefixes is replaced by the trimmed content itself (delimiters
stripped), not left in place. -/
theorem claim_C10 (ctx : ExprContext) (e : String) (he : e.data ≠ [])
    (hb : ∀ c ∈ e.data, c ≠ '}')
    (h1 : startsWithL "$result." (jsTrim e) = false)
    (h2 : startsWithL "$input." (jsTrim e) = false)
    (h3 : startsWithL "$context." (jsTrim e) = false)
    (h4 : startsWithL "$settings." (jsTrim e) = false) :
    parseString ("\x7b\x7b" ++ e ++ "\x7d\x7d") ctx = jsTrim e := by
  rw [parseString_span ctx e he hb]
  rw [evaluateSimpleExpression]
  rw [if_neg (by simp [h1]), if_neg (by simp [h2]), if_neg (by simp [h3]),
    if_neg (by simp [h4])]
  rfl

/-- Witness for C10: the string consisting of the span around `foo`
resolves to `foo`. -/
theorem claim_C10_witness : parseString "\x7b\x7bfoo\x7d\x7d" {} = "foo" := by
  have h := claim_C10 {} "foo" (by decide) (by decide) rfl rfl rfl rfl
  exact h

/-- Claim C5: resolving the template referring to node A before A recorded
any output yields the empty string (and, total functions throughout, never
raises); and the path walker returns an empty result as soon as the
current value along the dot path is missing or not an object. -/
theorem claim_C5 (ctx : ExprContext)
    (hA : ctx.previousResults.bind (fun m => alGet m "A") = none) :
    parseString "\x7b\x7b$result.A.value\x7d\x7d" ctx = "" ∧
    (∀ (v : Value) (k : String) (rest : List String),
      isContainer v = false → getValueByPath v (k :: rest) = .vStr "") := by
  constructor
  · have hspan := parseString_span ctx "$result.A.value" (by decide) (by decide)
    have hstr : ("\x7b\x7b" ++ "$result.A.value" ++ "\x7d\x7d") = "\x7b\x7b$result.A.value\x7d\x7d" := rfl
    rw [hstr] at hspan
    rw [hspan]
    have hev : evaluateSimpleExpression (jsTrim "$result.A.value") ctx =
        (match ctx.previousResults.bind (fun m => alGet m "A") with
         | none => Value.vStr ""
         | some nodeResult =>
           if truthy nodeResult then getValueByPath nodeResult ["value"]
           else .vStr "") := rfl
    rw [hev, hA]
    rfl
  · intro v k rest h
    cases v <;> simp [isContainer] at h ⊢ <;> rfl

/-- Witness for C5 at the empty previous-results map. -/
theorem claim_C5_witness :
    parseString "\x7b\x7b$result.A.value\x7d\x7d" { previousResults := some [] } = "" ∧
    getValueByPath .vUndefined ["value"] = .vStr "" := by
  have h := claim_C5 { previousResults := some [] } rfl
  exact ⟨h.1, h.2 .vUndefined "value" [] rfl⟩

/-- Claim C8 counterexample: executing an unregistered tool id returns a
failed result carrying no timing metadata, so the uniform shape promised
for every failure does not hold in the not-found case. -/
theorem claim_C8_counterexample :
    (Tool.executeTool [] "missing" .vNull 0).success = false ∧
    (Tool.executeTool [] "missing" .vNull 0).error = some "Tool not found: missing" ∧
    (Tool.executeTool [] "missing" .vNull 0).metadata = none := by
  refine ⟨rfl, rfl, rfl⟩

/-- Claim C8 (amended): executeTool is total and always returns the
uniform result record; when the tool id is registered, every outcome
(validation failure, callable failure, success) carries an error or data
together with timing metadata; when the id is not registered, the result
is a failure carrying an error but no metadata. -/
theorem claim_C8_amended (tools : List (String × Tool.ToolSpec)) (toolId : String)
    (input : Value) (elapsed : Int) :
    (alGet tools toolId = none →
      Tool.executeTool tools toolId input elapsed =
        { success := false, error := some ("Tool not found: " ++ toolId) }) ∧
    (∀ tool, alGet tools toolId = some tool →
      (Tool.executeTool tools toolId input elapsed).metadata =
        some { executionTime := elapsed } ∧
      ((Tool.executeTool tools toolId input elapsed).success = true ↔
        ∃ d, tool.parseParams input = .ok d ∧ ∃ r, tool.execute d = .ok r ∧
          (Tool.executeTool tools toolId input elapsed).data = some r) ∧
      ((Tool.executeTool tools toolId input elapsed).success = false →
        ∃ e, (Tool.executeTool tools toolId input elapsed).error = some e)) := by
  constructor
  · intro h
    rw [Tool.executeTool, h]
  · intro tool h
    have hrun : Tool.executeTool tools toolId input elapsed =
        (match tool.parseParams input with
         | .error e =>
           ({ success := false, error := some e,
              metadata := some { executionTime := elapsed } } : Tool.ToolExecutionResult)
         | .ok validated =>
           match tool.execute validated with
           | .error e =>
             { success := false, error := some e,
               metadata := some { executionTime := elapsed } }
           | .ok data =>
             { success := true, data := some data,
               metadata := some { executionTime := elapsed } }) := by
      rw [Tool.executeTool, h]
    rw [hrun]
    cases hp : tool.parseParams input with
    | error e =>
      refine ⟨rfl, ?_, fun _ => ⟨e, rfl⟩⟩
      constructor
      · intro hfalse; simp at hfalse
      · rintro ⟨d, hd, -⟩
        simp at hd
    | ok d =>
      cases hx : tool.execute d with
      | error e2 =>
        refine ⟨?_, ?_, ?_⟩
        · simp [hx]
        · constructor
          · intro hfalse
            simp [hx] at hfalse
          · rintro ⟨d2, hd2, r, hr, -⟩
            simp at hd2
            rw [← hd2, hx] at hr
            simp at hr
        · intro _
          exact ⟨e2, by simp [hx]⟩
      | ok r =>
        refine ⟨?_, ?_, ?_⟩
        · simp [hx]
        · constructor
          · intro _
            exact ⟨d, rfl, r, hx, by simp [hx]⟩
          · intro _
            simp [hx]
        · intro hfalse
          simp [hx] at hfalse

/-- Witness for C8 (amended): a registered tool whose callable throws
still produces the uniform failure shape with metadata, and the
not-found branch produces the metadata-free failure. -/
theorem claim_C8_amended_witness :
    Tool.executeTool [("bad", Fix.throwTool)] "bad" .vNull 7 =
      { success := false, error := some "exploded",
        metadata := some { executionTime := 7 } } ∧
    Tool.executeTool [("bad", Fix.throwTool)] "nope" .vNull 7 =
      { success := false, error := some ("Tool not found: " ++ "nope") } := by
  constructor
  · have h := (claim_C8_amended [("bad", Fix.throwTool)] "bad" .vNull 7).2
      Fix.throwTool rfl
    exact rfl
  · exact (claim_C8_amended [("bad", Fix.throwTool)] "nope" .vNull 7).1 rfl

/-- Claim C7: deserializing a payload containing a node whose type tag has
no registered constructor throws the unknown-type error naming the first
such tag, and no workflow value is produced. -/
theorem claim_C7 (sw : Ser.SerializedWorkflow) (sn : Ser.SerializedNode)
    (h : sw.nodes.find? (fun n => (Ser.getNodeConstructor n.config.type).isNone) = some sn) :
    Ser.fromJSON sw = .error ("Unknown node type: " ++ sn.config.type) ∧
    ∀ w, Ser.fromJSON sw ≠ .ok w := by
  have key : ∀ (l : List Ser.SerializedNode) (w : Ser.SWorkflow),
      l.find? (fun n => (Ser.getNodeConstructor n.config.type).isNone) = some sn →
      Ser.fromJSONNodes l w = .error ("Unknown node type: " ++ sn.config.type) := by
    intro l
    induction l with
    | nil => intro w hw; simp [List.find?] at hw
    | cons a rest ih =>
      intro w hw
      rw [List.find?] at hw
      cases hc : Ser.getNodeConstructor a.config.type with
      | none =>
        rw [hc] at hw
        simp at hw
        rw [Ser.fromJSONNodes, hc, ← hw]
      | some ctor =>
        rw [hc] at hw
        simp at hw
        rw [Ser.fromJSONNodes, hc]
        exact ih _ hw
  have herr : Ser.fromJSON sw = .error ("Unknown node type: " ++ sn.config.type) := by
    rw [Ser.fromJSON, key sw.nodes _ h]
  refine ⟨herr, ?_⟩
  intro w hcontra
  rw [herr] at hcontra
  cases hcontra

/-- Witness for C7: the payload with `type:"nonexistent-type"`. -/
theorem claim_C7_witness :
    Ser.fromJSON Fix.badPayload =
      .error ("Unknown node type: " ++ "nonexistent-type") := by
  exact (claim_C7 Fix.badPayload (Fix.badPayload.nodes.headD
    { config := { id := "", name := "", type := "" },
      settings := .vObj [], originalSettings := .vObj [] }) rfl).1

/-! Association-list lemmas. -/

theorem alGet_eq_none_iff {α : Type} (m : List (String × α)) (k : String) :
    alGet m k = none ↔ k ∉ alKeys m := by
  induction m with
  | nil => simp [alGet, alKeys]
  | cons p rest ih =>
    rw [alGet]
    by_cases h : p.1 = k
    · simp [h, alKeys]
    · simp [h, alKeys, ih, Ne.symm h]

theorem alSet_fresh {α : Type} (m : List (String × α)) (k : String) (v : α)
    (h : alGet m k = none) : alSet m k v = m ++ [(k, v)] := by
  induction m with
  | nil => rfl
  | cons p rest ih =>
    rw [alGet] at h
    by_cases hp : p.1 = k
    · simp [hp] at h
    · rw [alSet, if_neg hp, ih (by simpa [hp] using h)]
      rfl

theorem alGet_append_of_none {α : Type} (m1 m2 : List (String × α)) (k : String)
    (h : alGet m1 k = none) : alGet (m1 ++ m2) k = alGet m2 k := by
  induction m1 with
  | nil => rfl
  | cons p rest ih =>
    rw [alGet] at h
    by_cases hp : p.1 = k
    · simp [hp] at h
    · rw [List.cons_append, alGet, if_neg hp]
      exact ih (by simpa [hp] using h)

/-! deepClone is a structural identity on the value model. -/

mutual

theorem deepClone_id : ∀ v : Value, Ser.deepClone v = v
  | .vUndefined => rfl
  | .vNull => rfl
  | .vBool _ => rfl
  | .vInt _ => rfl
  | .vStr _ => rfl
  | .vArr xs => by rw [Ser.deepClone, deepCloneList_id xs]
  | .vObj fs => by rw [Ser.deepClone, deepCloneFields_id fs]

theorem deepCloneList_id : ∀ xs : List Value, Ser.deepCloneList xs = xs
  | [] => rfl
  | v :: rest => by rw [Ser.deepCloneList, deepClone_id v, deepCloneList_id rest]

theorem deepCloneFields_id : ∀ fs : List (String × Value), Ser.deepCloneFields fs = fs
  | [] => rfl
  | (k, v) :: rest => by
    rw [Ser.deepCloneFields, deepClone_id v, deepCloneFields_id rest]

end

theorem truthy_of_isVObj (v : Value) (h : isVObj v = true) : truthy v = true := by
  cases v <;> simp [isVObj, truthy] at h ⊢

/-- The serialized form of one node as emitted by toJSON. -/
theorem fromJSONNodes_roundtrip :
    ∀ (l : List (String × Ser.SNode)) (w : Ser.SWorkflow),
      (∀ p ∈ l, p.1 = p.2.config.id) →
      (∀ p ∈ l, Ser.CtorFits p.2) →
      (∀ p ∈ l, isVObj p.2.originalSettings = true) →
      (∀ p ∈ l, alGet w.nodes p.1 = none) →
      (alKeys l).Nodup →
      Ser.fromJSONNodes
        (l.map (fun p =>
          { config := { id := p.1, name := p.2.config.name, type := p.2.config.type },
            settings := p.2.settings,
            originalSettings := p.2.originalSettings }))
        w = .ok { w with nodes := w.nodes ++ l } := by
  intro l
  induction l with
  | nil =>
    intro w _ _ _ _ _
    rw [List.map_nil, Ser.fromJSONNodes]
    simp
  | cons p rest ih =>
    intro w hkeys hctor horig hfresh hnodup
    obtain ⟨f, hf, hfc, hfs⟩ := hctor p (by simp)
    have hk : p.1 = p.2.config.id := hkeys p (by simp)
    have ho : isVObj p.2.originalSettings = true := horig p (by simp)
    rw [List.map_cons, Ser.fromJSONNodes]
    simp only [deepClone_id, hf, hk]
    rw [if_pos (truthy_of_isVObj _ ho)]
    have hnode : Ser.SNode.mk (f p.2.config.id p.2.settings).config
        (f p.2.config.id p.2.settings).settings p.2.originalSettings = p.2 := by
      rw [hfc, hfs]
    rw [hnode]
    have haddw : Ser.addNodeS w p.2 = { w with nodes := w.nodes ++ [(p.1, p.2)] } := by
      rw [Ser.addNodeS, ← hk, alSet_fresh _ _ _ (hfresh p (by simp))]
    rw [haddw]
    have hres := ih { w with nodes := w.nodes ++ [(p.1, p.2)] }
      (fun q hq => hkeys q (by simp [hq]))
      (fun q hq => hctor q (by simp [hq]))
      (fun q hq => horig q (by simp [hq]))
      (fun q hq => by
        have hq1 : alGet w.nodes q.1 = none := hfresh q (by simp [hq])
        rw [alGet_append_of_none _ _ _ hq1]
        have hne : q.1 ≠ p.1 := by
          intro hqp
          rw [alKeys, List.map_cons] at hnodup
          have := (List.nodup_cons.mp hnodup).1
          exact this (hqp ▸ (List.mem_map.mpr ⟨q, hq, rfl⟩))
        simp [alGet, Ne.symm hne])
      (by
        rw [alKeys, List.map_cons] at hnodup
        exact (List.nodup_cons.mp hnodup).2)
    rw [hres]
    simp

/-- Folding the serialized connections through addConnectionS rebuilds the
connection map with the branch index erased. -/
theorem foldConns_roundtrip :
    ∀ (l : List (String × Ser.SConn)) (w : Ser.SWorkflow),
      (∀ p ∈ l, p.1 = p.2.id) →
      (alKeys l).Nodup →
      (∀ p ∈ l, alGet w.connections p.1 = none) →
      ((l.map (fun p =>
          ({ id := p.2.id, sourceNodeId := p.2.sourceNodeId,
             targetNodeId := p.2.targetNodeId, branchIndex := none } : Ser.SConn))).foldl
        Ser.addConnectionS w) =
        { w with connections := w.connections ++
            l.map (fun p => (p.1, { p.2 with branchIndex := none })) } := by
  intro l
  induction l with
  | nil =>
    intro w _ _ _
    rw [List.map_nil, List.foldl_nil]
    simp
  | cons p rest ih =>
    intro w hkeys hnodup hfresh
    have hk : p.1 = p.2.id := hkeys p (by simp)
    rw [List.map_cons, List.foldl_cons]
    have hstep : Ser.addConnectionS w
        { id := p.2.id, sourceNodeId := p.2.sourceNodeId,
          targetNodeId := p.2.targetNodeId, branchIndex := none } =
        { w with connections := w.connections ++
            [(p.1, { p.2 with branchIndex := none })] } := by
      rw [Ser.addConnectionS]
      simp only
      rw [← hk, alSet_fresh _ _ _ (hfresh p (by simp))]
    rw [hstep]
    have hres := ih { w with connections := w.connections ++
        [(p.1, { p.2 with branchIndex := none })] }
      (fun q hq => hkeys q (by simp [hq]))
      (by
        rw [alKeys, List.map_cons] at hnodup
        exact (List.nodup_cons.mp hnodup).2)
      (fun q hq => by
        have hq1 : alGet w.connections q.1 = none := hfresh q (by simp [hq])
        rw [alGet_append_of_none _ _ _ hq1]
        have hne : q.1 ≠ p.1 := by
          intro hqp
          rw [alKeys, List.map_cons] at hnodup
          have := (List.nodup_cons.mp hnodup).1
          exact this (hqp ▸ (List.mem_map.mpr ⟨q, hq, rfl⟩))
        simp [alGet, Ne.symm hne])
    rw [hres]
    simp

/-- Claim C4 counterexample: the round trip drops the branch index of a
connection, so the connection structure is not reproduced exactly — the
workflow below stores branch index 1 on connection c1, the reconstruction
stores none. -/
theorem claim_C4_counterexample :
    (Ser.fromJSON (Ser.toJSON Fix.serWf "2026-01-01T00:00:00.000Z")).toOption.map
        (fun w => alGet w.connections "c1") =
      some (some { id := "c1", sourceNodeId := "n1", targetNodeId := "n2",
                   branchIndex := none }) ∧
    alGet Fix.serWf.connections "c1" =
      some { id := "c1", sourceNodeId := "n1", targetNodeId := "n2",
             branchIndex := some 1 } :=
  ⟨rfl, rfl⟩

/-- Claim C4 (amended): for every workflow fromJSON can reconstruct (all
node tags registered with constructors reproducing name/type/settings, raw
settings objects, map keys matching ids and not duplicated),
fromJSON(toJSON(x)) reproduces the workflow config and the node structure
exactly (per node: id, name, type, resolved settings, raw settings) and
reproduces each connection's id, source and target, while the branch index
— which toJSON does not emit — is reset to absent; timestamp metadata is
regenerated. -/
theorem claim_C4_amended (x : Ser.SWorkflow) (nowIso : String)
    (hkeys : ∀ p ∈ x.nodes, p.1 = p.2.config.id)
    (hctor : ∀ p ∈ x.nodes, Ser.CtorFits p.2)
    (horig : ∀ p ∈ x.nodes, isVObj p.2.originalSettings = true)
    (hnodup : (alKeys x.nodes).Nodup)
    (hckeys : ∀ p ∈ x.connections, p.1 = p.2.id)
    (hcnodup : (alKeys x.connections).Nodup) :
    Ser.fromJSON (Ser.toJSON x nowIso) =
      .ok { config := x.config, nodes := x.nodes,
            connections :=
              x.connections.map (fun p => (p.1, { p.2 with branchIndex := none })) } := by
  rw [Ser.fromJSON]
  have hnodes := fromJSONNodes_roundtrip x.nodes
    { config := x.config, nodes := [], connections := [] }
    hkeys hctor horig (fun p _ => rfl) hnodup
  have hser : (Ser.toJSON x nowIso).nodes =
      x.nodes.map (fun p =>
        { config := { id := p.1, name := p.2.config.name, type := p.2.config.type },
          settings := p.2.settings,
          originalSettings := p.2.originalSettings }) := by
    rw [Ser.toJSON]
    simp [deepClone_id]
  have hcfg : (Ser.toJSON x nowIso).config = x.config := rfl
  rw [hser, hcfg, hnodes]
  simp only [Except.ok.injEq]
  have hconns : (Ser.toJSON x nowIso).connections =
      x.connections.map (fun p =>
        ({ id := p.2.id, sourceNodeId := p.2.sourceNodeId,
           targetNodeId := p.2.targetNodeId, branchIndex := none } : Ser.SConn)) := by
    rw [Ser.toJSON]
    simp [alValues]
  rw [hconns]
  have hfold := foldConns_roundtrip x.connections
    { config := x.config, nodes := x.nodes, connections := [] } hckeys hcnodup
    (fun p _ => rfl)
  exact hfold.trans (by simp)

/-- Witness for C4 (amended) on the two-node fixture: the reconstruction
has the same config and nodes and the same connection modulo the erased
branch index. -/
theorem claim_C4_amended_witness :
    Ser.fromJSON (Ser.toJSON Fix.serWf "2026-01-01T00:00:00.000Z") =
      .ok { config := Fix.serWf.config, nodes := Fix.serWf.nodes,
            connections :=
              Fix.serWf.connections.map
                (fun p => (p.1, { p.2 with branchIndex := none })) } := by
  refine claim_C4_amended Fix.serWf "2026-01-01T00:00:00.000Z" ?_ ?_ ?_ ?_ ?_ ?_
  · intro p hp
    simp only [Fix.serWf, List.mem_cons, List.not_mem_nil, or_false] at hp
    rcases hp with rfl | rfl <;> rfl
  · intro p hp
    simp only [Fix.serWf, List.mem_cons, List.not_mem_nil, or_false] at hp
    rcases hp with rfl | rfl <;>
      exact ⟨Ser.mkSimpleNode "代码执行" "code", rfl, rfl, rfl⟩
  · intro p hp
    simp only [Fix.serWf, List.mem_cons, List.not_mem_nil, or_false] at hp
    rcases hp with rfl | rfl <;> rfl
  · decide
  · intro p hp
    simp only [Fix.serWf, List.mem_cons, List.not_mem_nil, or_false] at hp
    rcases hp with rfl
    rfl
  · decide

/-! Correctness of the depth-first cycle search (claims C1 and C2). -/

theorem alGet_some_mem_keys {α : Type} {m : List (String × α)} {k : String} {v : α}
    (h : alGet m k = some v) : k ∈ alKeys m := by
  by_contra hk
  rw [← alGet_eq_none_iff] at hk
  rw [hk] at h
  cases h

theorem mem_alValues_alSet {α : Type} {m : List (String × α)} {k : String} {v x : α}
    (h : x ∈ alValues (alSet m k v)) : x ∈ alValues m ∨ x = v := by
  induction m with
  | nil =>
    rw [alSet] at h
    simp [alValues] at h
    exact Or.inr h
  | cons p rest ih =>
    rw [alSet] at h
    by_cases hp : p.1 = k
    · rw [if_pos hp] at h
      simp only [alValues, List.map_cons, List.mem_cons] at h
      rcases h with h | h
      · exact Or.inr h
      · exact Or.inl (by simp [alValues, h])
    · rw [if_neg hp] at h
      simp only [alValues, List.map_cons, List.mem_cons] at h
      rcases h with h | h
      · exact Or.inl (by simp [alValues, h])
      · rcases ih (by simpa [alValues] using h) with h2 | h2
        · exact Or.inl (by simp [alValues] at h2 ⊢; exact Or.inr h2)
        · exact Or.inr h2

theorem erase_append_self (l : List String) (u : String) (h : u ∉ l) :
    (l ++ [u]).erase u = l := by
  induction l with
  | nil => simp
  | cons a rest ih =>
    have ha : ¬ (a == u) = true := by
      simp only [beq_iff_eq]
      intro hau
      exact h (by simp [hau])
    rw [List.cons_append, List.erase_cons, if_neg ha,
      ih (fun hm => h (by simp [hm]))]

theorem connStep_iff_successors (conns : List Graph.Conn) (u y : String) :
    Graph.connStep conns u y ↔ y ∈ Graph.successors conns u := by
  rw [Graph.connStep, Graph.successors]
  simp only [List.mem_map, List.mem_filter]
  constructor
  · rintro ⟨c, hc, hs, ht⟩
    exact ⟨c, ⟨hc, by simp [hs]⟩, ht⟩
  · rintro ⟨c, ⟨hc, hs⟩, ht⟩
    exact ⟨c, hc, by simpa using hs, ht⟩

theorem isBlack_push (st : Graph.DfsSt) (u x : String) (hu : u ∉ st.visited) :
    Graph.IsBlack ⟨st.visited ++ [u], st.stack ++ [u]⟩ x ↔ Graph.IsBlack st x := by
  rw [Graph.IsBlack, Graph.IsBlack]
  simp only [List.mem_append, List.mem_singleton]
  by_cases hx : x = u
  · subst hx
    constructor
    · rintro ⟨-, hns⟩
      exact absurd (Or.inr rfl) hns
    · rintro ⟨hv, -⟩
      exact absurd hv hu
  · constructor
    · rintro ⟨hv, hns⟩
      refine ⟨?_, fun hs => hns (Or.inl hs)⟩
      rcases hv with hv | hv
      · exact hv
      · exact absurd hv hx
    · rintro ⟨hv, hns⟩
      exact ⟨Or.inl hv, by simp [hx, hns]⟩

theorem closed_reflTrans (conns : List Graph.Conn) (st : Graph.DfsSt)
    (hclosed : ∀ x, Graph.IsBlack st x → ∀ y, Graph.connStep conns x y → Graph.IsBlack st y)
    (a b : String) (hb : Graph.IsBlack st a)
    (h : Relation.ReflTransGen (Graph.connStep conns) a b) : Graph.IsBlack st b := by
  induction h with
  | refl => exact hb
  | tail _ hstep ihb => exact hclosed _ ihb _ hstep

/-- Main invariant lemma of the cycle search: a call that answers `false`
preserves the invariant, restores the stack, grows the visited set and
leaves its argument fully processed; the loop over successors additionally
leaves every listed node fully processed. -/
theorem visit_false_spec (conns : List Graph.Conn) : ∀ fuel : Nat,
    ∀ st u st2, Graph.DfsInv conns st →
      Graph.visit conns fuel st u = (false, st2) →
      Graph.DfsInv conns st2 ∧ st2.stack = st.stack ∧
      (∀ x ∈ st.visited, x ∈ st2.visited) ∧ Graph.IsBlack st2 u := by
  intro fuel
  induction fuel with
  | zero =>
    intro st u st2 _ h
    rw [Graph.visit] at h
    simp at h
  | succ fuel ih =>
    have hfold : ∀ ts st st2, Graph.DfsInv conns st →
        Graph.visitFold conns fuel ts st = (false, st2) →
        Graph.DfsInv conns st2 ∧ st2.stack = st.stack ∧
        (∀ x ∈ st.visited, x ∈ st2.visited) ∧ (∀ t ∈ ts, Graph.IsBlack st2 t) := by
      intro ts
      induction ts with
      | nil =>
        intro st st2 hinv h
        rw [Graph.visitFold] at h
        simp only [Prod.mk.injEq] at h
        rw [← h.2]
        exact ⟨hinv, rfl, fun x hx => hx, by simp⟩
      | cons t ts ihts =>
        intro st st2 hinv h
        rw [Graph.visitFold] at h
        cases hv : Graph.visit conns fuel st t with
        | mk b stv =>
          rw [hv] at h
          cases b
          · obtain ⟨hinv1, hstack1, hmono1, hblack1⟩ := ih st t stv hinv hv
            obtain ⟨hinv2, hstack2, hmono2, hblacks2⟩ := ihts stv st2 hinv1 h
            refine ⟨hinv2, hstack2.trans hstack1, fun x hx => hmono2 x (hmono1 x hx), ?_⟩
            intro t2 ht2
            rcases List.mem_cons.mp ht2 with rfl | ht2
            · exact ⟨hmono2 _ hblack1.1, hstack2 ▸ hblack1.2⟩
            · exact hblacks2 t2 ht2
          · simp at h
    intro st u st2 hinv h
    rw [Graph.visit] at h
    by_cases hstk : u ∈ st.stack
    · rw [if_pos hstk] at h
      simp at h
    · rw [if_neg hstk] at h
      by_cases hvis : u ∈ st.visited
      · rw [if_pos hvis] at h
        simp only [Prod.mk.injEq] at h
        rw [← h.2]
        exact ⟨hinv, rfl, fun x hx => hx, hvis, hstk⟩
      · rw [if_neg hvis] at h
        simp only [] at h
        cases hfd : Graph.visitFold conns fuel (Graph.successors conns u)
            ⟨st.visited ++ [u], st.stack ++ [u]⟩ with
        | mk b st3 =>
          rw [hfd] at h
          cases b
          · -- the fold answered false: u is popped and turns black
            have hinv1 : Graph.DfsInv conns ⟨st.visited ++ [u], st.stack ++ [u]⟩ := by
              obtain ⟨hsv, hcl, hnc⟩ := hinv
              refine ⟨?_, ?_, ?_⟩
              · intro x hx
                simp only [List.mem_append, List.mem_singleton] at hx ⊢
                rcases hx with hx | hx
                · exact Or.inl (hsv x hx)
                · exact Or.inr hx
              · intro x hx y hxy
                rw [isBlack_push st u x hvis] at hx
                rw [isBlack_push st u y hvis]
                exact hcl x hx y hxy
              · intro x hx
                rw [isBlack_push st u x hvis] at hx
                exact hnc x hx
            obtain ⟨hinv3, hstack3, hmono3, hblacks3⟩ :=
              hfold (Graph.successors conns u) _ st3 hinv1 hfd
            simp only [Prod.mk.injEq] at h
            have hstus : u ∉ st.stack ∧ u ∉ st.visited := ⟨hstk, hvis⟩
            have herase : st3.stack.erase u = st.stack := by
              rw [hstack3]
              exact erase_append_self st.stack u hstk
            rw [← h.2]
            have huvis3 : u ∈ st3.visited := hmono3 u (by simp)
            have hmono : ∀ x ∈ st.visited, x ∈ st3.visited :=
              fun x hx => hmono3 x (by simp [hx])
            -- every node black after the fold stays black after the pop
            have hb3_to_b : ∀ x, Graph.IsBlack st3 x →
                Graph.IsBlack ⟨st3.visited, st3.stack.erase u⟩ x := by
              intro x hx
              refine ⟨hx.1, ?_⟩
              rw [herase]
              intro hxs
              exact hx.2 (by rw [hstack3]; simp [hxs])
            have hbu : Graph.IsBlack ⟨st3.visited, st3.stack.erase u⟩ u := by
              refine ⟨huvis3, ?_⟩
              rw [herase]
              exact hstk
            -- characterize blackness after the pop
            have hb_char : ∀ x, Graph.IsBlack ⟨st3.visited, st3.stack.erase u⟩ x →
                Graph.IsBlack st3 x ∨ x = u := by
              intro x hx
              by_cases hxu : x = u
              · exact Or.inr hxu
              · refine Or.inl ⟨hx.1, ?_⟩
                intro hxs
                have := hx.2
                rw [herase] at this
                rw [hstack3] at hxs
                simp only [List.mem_append, List.mem_singleton] at hxs
                rcases hxs with hxs | hxs
                · exact this hxs
                · exact hxu hxs
            obtain ⟨hsv3, hcl3, hnc3⟩ := hinv3
            have hclosed2 : ∀ x, Graph.IsBlack ⟨st3.visited, st3.stack.erase u⟩ x →
                ∀ y, Graph.connStep conns x y →
                Graph.IsBlack ⟨st3.visited, st3.stack.erase u⟩ y := by
              intro x hx y hxy
              rcases hb_char x hx with hx3 | rfl
              · exact hb3_to_b y (hcl3 x hx3 y hxy)
              · have hy : y ∈ Graph.successors conns x :=
                  (connStep_iff_successors conns x y).mp hxy
                exact hb3_to_b y (hblacks3 y hy)
            refine ⟨⟨?_, hclosed2, ?_⟩, herase ▸ rfl, hmono, hbu⟩
            · intro x hx
              have : x ∈ st3.stack := by
                have hsub := List.erase_subset (l := st3.stack) (a := u)
                exact hsub hx
              exact hsv3 x this
            · intro x hx hcyc
              rcases hb_char x hx with hx3 | rfl
              · exact hnc3 x hx3 hcyc
              · -- a cycle through the freshly blackened node would re-enter
                -- the closed black set of st3, which does not contain it
                obtain ⟨y, hxy, hyx⟩ := (Relation.TransGen.head'_iff).mp hcyc
                have hy3 : Graph.IsBlack st3 y :=
                  hblacks3 y ((connStep_iff_successors conns x y).mp hxy)
                have hx3 : Graph.IsBlack st3 x :=
                  closed_reflTrans conns st3 hcl3 y x hy3 hyx
                exact hx3.2 (by rw [hstack3]; simp)
          · simp at h

/-- A full outer loop answering `false` leaves an invariant state with an
empty stack whose visited set covers every listed root. -/
theorem dfsAll_false_spec (conns : List Graph.Conn) (fuel : Nat) :
    ∀ (ids : List String) (st : Graph.DfsSt), Graph.DfsInv conns st → st.stack = [] →
    Graph.dfsAll conns fuel ids st = false →
    ∃ st2, Graph.DfsInv conns st2 ∧ st2.stack = [] ∧
      (∀ x ∈ st.visited, x ∈ st2.visited) ∧ ∀ id ∈ ids, id ∈ st2.visited := by
  intro ids
  induction ids with
  | nil =>
    intro st hinv hstack _
    exact ⟨st, hinv, hstack, fun x hx => hx, by simp⟩
  | cons id rest ih =>
    intro st hinv hstack h
    rw [Graph.dfsAll] at h
    by_cases hv : id ∈ st.visited
    · rw [if_pos hv] at h
      obtain ⟨st2, hinv2, hstack2, hmono2, hcover2⟩ := ih st hinv hstack h
      refine ⟨st2, hinv2, hstack2, hmono2, ?_⟩
      intro i hi
      rcases List.mem_cons.mp hi with rfl | hi
      · exact hmono2 i hv
      · exact hcover2 i hi
    · rw [if_neg hv] at h
      cases hvst : Graph.visit conns fuel st id with
      | mk b st3 =>
        rw [hvst] at h
        cases b
        · obtain ⟨hinv3, hstack3, hmono3, hblack3⟩ :=
            visit_false_spec conns fuel st id st3 hinv hvst
          obtain ⟨st2, hinv2, hstack2, hmono2, hcover2⟩ :=
            ih st3 hinv3 (hstack3.trans hstack) h
          refine ⟨st2, hinv2, hstack2, fun x hx => hmono2 x (hmono3 x hx), ?_⟩
          intro i hi
          rcases List.mem_cons.mp hi with rfl | hi
          · exact hmono2 i hblack3.1
          · exact hcover2 i hi
        · simp at h

/-- If the search over all nodes reports no cycle and every connection
leaves a listed node, the connection set is acyclic. -/
theorem dfsAll_false_acyclic (conns : List Graph.Conn) (fuel : Nat)
    (ids : List String)
    (hsrc : ∀ cc ∈ conns, cc.sourceNodeId ∈ ids)
    (h : Graph.dfsAll conns fuel ids ⟨[], []⟩ = false) :
    ¬ Graph.HasCycle conns := by
  have hinv0 : Graph.DfsInv conns ⟨[], []⟩ := by
    refine ⟨by simp, ?_, ?_⟩
    · intro x hx
      exact absurd hx.1 (by simp)
    · intro x hx
      exact absurd hx.1 (by simp)
  obtain ⟨st2, hinv2, hstack2, -, hcover2⟩ :=
    dfsAll_false_spec conns fuel ids ⟨[], []⟩ hinv0 rfl h
  rintro ⟨a, hcyc⟩
  obtain ⟨b, hab, -⟩ := (Relation.TransGen.head'_iff).mp hcyc
  obtain ⟨cc, hcc, hccs, -⟩ := hab
  have ha : a ∈ ids := hccs ▸ hsrc cc hcc
  have hblack : Graph.IsBlack st2 a := ⟨hcover2 a ha, by rw [hstack2]; simp⟩
  exact hinv2.2.2 a hblack hcyc

/-- Completeness of wouldCreateCycle: a genuine cycle in the connection
set extended with the candidate edge is always reported, provided every
connection (old and new) leaves an existing node. -/
theorem wouldCreateCycle_complete (w : Graph.Workflow) (c : Graph.Conn)
    (hsrc : ∀ cc ∈ alValues (alSet w.connections c.id c),
      cc.sourceNodeId ∈ Graph.nodeIds w)
    (hcyc : Graph.HasCycle (alValues (alSet w.connections c.id c))) :
    Graph.wouldCreateCycle w c = true := by
  by_contra h
  have hfalse : Graph.wouldCreateCycle w c = false := by
    cases hwc : Graph.wouldCreateCycle w c
    · rfl
    · exact absurd hwc h
  rw [Graph.wouldCreateCycle] at hfalse
  exact dfsAll_false_acyclic _ _ _ hsrc hfalse hcyc

/-- Claim C2: adding a connection whose insertion would make the
connection set cyclic (a self-loop included) raises a structural error and
leaves the workflow unmodified: the returned state is the input state, so
node and connection maps keep their counts and membership. -/
theorem claim_C2 (w : Graph.Workflow) (c : Graph.Conn)
    (hwf : Graph.ValidEndpoints w)
    (hcyc : Graph.HasCycle (alValues (alSet w.connections c.id c))) :
    (∃ e, Graph.addConnection w c = (.error e, w)) ∧
    (Graph.addConnection w c).2.nodes = w.nodes ∧
    (Graph.addConnection w c).2.connections = w.connections := by
  have hval : ∃ e, Graph.validateConnection w c = .error e := by
    rw [Graph.validateConnection]
    cases hs : alGet w.nodes c.sourceNodeId with
    | none => exact ⟨_, rfl⟩
    | some sourceNode =>
      dsimp only
      cases ht : alGet w.nodes c.targetNodeId with
      | none => exact ⟨_, rfl⟩
      | some targetNode =>
        dsimp only
        cases hsp : alGet sourceNode.outputPorts c.sourcePortId with
        | none => exact ⟨_, rfl⟩
        | some sourcePort =>
          dsimp only
          cases htp : alGet targetNode.inputPorts c.targetPortId with
          | none => exact ⟨_, rfl⟩
          | some targetPort =>
            dsimp only
            by_cases hcompat : Graph.isInputCompatible targetNode c.targetPortId sourcePort
            · rw [if_neg (by simp [hcompat])]
              have hsrcs : ∀ cc ∈ alValues (alSet w.connections c.id c),
                  cc.sourceNodeId ∈ Graph.nodeIds w := by
                intro cc hcc
                rcases mem_alValues_alSet hcc with h | rfl
                · exact (hwf cc h).1
                · exact alGet_some_mem_keys hs
              rw [if_pos (by simp [wouldCreateCycle_complete w c hsrcs hcyc])]
              exact ⟨_, rfl⟩
            · rw [if_pos (by simp [hcompat])]
              exact ⟨_, rfl⟩
  obtain ⟨e, he⟩ := hval
  have hadd : Graph.addConnection w c = (.error e, w) := by
    rw [Graph.addConnection, he]
  exact ⟨⟨e, hadd⟩, by rw [hadd], by rw [hadd]⟩

/-- Witness for C2: the self-loop A→A on the one-node workflow is
rejected; node count stays 1, connection count stays 0. -/
theorem claim_C2_witness :
    (∃ e, Graph.addConnection Fix.wfSingle Fix.connSelf = (.error e, Fix.wfSingle)) ∧
    (Graph.addConnection Fix.wfSingle Fix.connSelf).2.nodes.length = 1 ∧
    (Graph.addConnection Fix.wfSingle Fix.connSelf).2.connections.length = 0 := by
  have hwf : Graph.ValidEndpoints Fix.wfSingle := by
    intro cc hcc
    simp [Fix.wfSingle, alValues] at hcc
  have hcyc : Graph.HasCycle
      (alValues (alSet Fix.wfSingle.connections Fix.connSelf.id Fix.connSelf)) := by
    refine ⟨"A", Relation.TransGen.single ?_⟩
    exact ⟨Fix.connSelf, by simp [Fix.wfSingle, alValues, alSet], rfl, rfl⟩
  have h := claim_C2 Fix.wfSingle Fix.connSelf hwf hcyc
  refine ⟨h.1, ?_, ?_⟩
  · rw [h.2.1]
    rfl
  · rw [h.2.2]
    rfl

/-! Correctness of the Kahn topological sort (claim C1). -/

theorem alGet_alUpdate_self {α : Type} (m : List (String × α)) (k : String)
    (f : α → α) : alGet (alUpdate m k f) k = (alGet m k).map f := by
  induction m with
  | nil => rfl
  | cons p rest ih =>
    by_cases hp : p.1 = k
    · simp [alUpdate, alGet, hp]
    · simp [alUpdate, alGet, hp, ih]

theorem alGet_alUpdate_ne {α : Type} (m : List (String × α)) (k k2 : String)
    (f : α → α) (h : k ≠ k2) : alGet (alUpdate m k f) k2 = alGet m k2 := by
  induction m with
  | nil => rfl
  | cons p rest ih =>
    by_cases hp : p.1 = k
    · simp [alUpdate, alGet, hp, h]
    · by_cases hp2 : p.1 = k2
      · simp [alUpdate, alGet, hp, hp2, Ne.symm h]
      · simp [alUpdate, alGet, hp, hp2, ih]

theorem alKeys_alUpdate {α : Type} (m : List (String × α)) (k : String)
    (f : α → α) : alKeys (alUpdate m k f) = alKeys m := by
  induction m with
  | nil => rfl
  | cons p rest ih =>
    by_cases hp : p.1 = k
    · simp [alUpdate, alKeys, hp]
    · simp only [alUpdate, if_neg hp, alKeys, List.map_cons]
      simpa [alKeys] using ih

theorem alGet_alSet_self {α : Type} (m : List (String × α)) (k : String) (v : α) :
    alGet (alSet m k v) k = some v := by
  induction m with
  | nil => simp [alSet, alGet]
  | cons p rest ih =>
    by_cases hp : p.1 = k
    · simp [alSet, alGet, hp]
    · simp [alSet, alGet, hp, ih]

theorem alGet_alSet_ne {α : Type} (m : List (String × α)) (k k2 : String) (v : α)
    (h : k ≠ k2) : alGet (alSet m k v) k2 = alGet m k2 := by
  induction m with
  | nil => simp [alSet, alGet, h]
  | cons p rest ih =>
    by_cases hp : p.1 = k
    · simp [alSet, alGet, hp, h]
    · by_cases hp2 : p.1 = k2
      · simp [alSet, alGet, hp, hp2, Ne.symm h]
      · simp [alSet, alGet, hp, hp2, ih]

theorem alKeys_alSet_of_mem {α : Type} (m : List (String × α)) (k : String) (v : α)
    (h : k ∈ alKeys m) : alKeys (alSet m k v) = alKeys m := by
  induction m with
  | nil => simp [alKeys] at h
  | cons p rest ih =>
    by_cases hp : p.1 = k
    · simp [alSet, alKeys, hp]
    · simp only [alSet, if_neg hp, alKeys, List.map_cons]
      have hk2 : k ∈ alKeys rest := by
        simp only [alKeys, List.map_cons, List.mem_cons] at h
        rcases h with hk | hk
        · exact absurd hk.symm hp
        · exact hk
      have hih := ih hk2
      simp only [alKeys] at hih
      rw [hih]

theorem alGet_const_of_mem {α : Type} (ids : List String) (x : α) (u : String)
    (h : u ∈ ids) : alGet (ids.map (fun i => (i, x))) u = some x := by
  induction ids with
  | nil => simp at h
  | cons i rest ih =>
    rw [List.map_cons, alGet]
    by_cases hi : i = u
    · rw [if_pos hi]
    · rcases List.mem_cons.mp h with hu | hu
      · exact absurd hu.symm hi
      · rw [if_neg hi]
        exact ih hu

theorem alGet_of_mem_nodup {α : Type} (m : List (String × α)) (p : String × α)
    (hm : p ∈ m) (hnd : (alKeys m).Nodup) : alGet m p.1 = some p.2 := by
  induction m with
  | nil => simp at hm
  | cons q rest ih =>
    rw [alGet]
    rcases List.mem_cons.mp hm with hp | hp
    · rw [hp]
      simp
    · by_cases hq : q.1 = p.1
      · exfalso
        rw [alKeys, List.map_cons] at hnd
        exact (List.nodup_cons.mp hnd).1 (hq ▸ List.mem_map.mpr ⟨p, hp, rfl⟩)
      · rw [if_neg hq]
        exact ih hp (by
          rw [alKeys, List.map_cons] at hnd
          exact (List.nodup_cons.mp hnd).2)

theorem count_successors (conns : List Graph.Conn) (u t : String) :
    (Graph.successors conns u).count t =
      (conns.filter (fun c =>
        decide (c.sourceNodeId = u ∧ c.targetNodeId = t))).length := by
  induction conns with
  | nil => rfl
  | cons c rest ih =>
    rw [Graph.successors] at ih ⊢
    rw [List.filter_cons, List.filter_cons]
    by_cases hs : c.sourceNodeId = u
    · rw [if_pos (by simpa using hs)]
      rw [List.map_cons]
      by_cases ht : c.targetNodeId = t
      · rw [if_pos (by simp [hs, ht]), List.length_cons, ← ih]
        simp [List.count_cons, ht]
      · rw [if_neg (by simp [ht]), ← ih]
        simp [List.count_cons, ht]
    · rw [if_neg (by simpa using hs), if_neg (by simp [hs]), ih]

theorem buildGraph_fold_spec :
    ∀ (cs : List Graph.Conn) (dg : List (String × Int))
      (ad : List (String × List String)),
      alKeys (cs.foldl
        (fun acc c =>
          (alUpdate acc.1 c.targetNodeId (fun d => d + 1),
           alUpdate acc.2 c.sourceNodeId (fun l => l ++ [c.targetNodeId])))
        (dg, ad)).1 = alKeys dg ∧
      alKeys (cs.foldl
        (fun acc c =>
          (alUpdate acc.1 c.targetNodeId (fun d => d + 1),
           alUpdate acc.2 c.sourceNodeId (fun l => l ++ [c.targetNodeId])))
        (dg, ad)).2 = alKeys ad ∧
      (∀ u, alGet (cs.foldl
        (fun acc c =>
          (alUpdate acc.1 c.targetNodeId (fun d => d + 1),
           alUpdate acc.2 c.sourceNodeId (fun l => l ++ [c.targetNodeId])))
        (dg, ad)).1 u = (alGet dg u).map
          (fun v => v +
            ((cs.filter (fun c => decide (c.targetNodeId = u))).length : Int))) ∧
      (∀ u, alGet (cs.foldl
        (fun acc c =>
          (alUpdate acc.1 c.targetNodeId (fun d => d + 1),
           alUpdate acc.2 c.sourceNodeId (fun l => l ++ [c.targetNodeId])))
        (dg, ad)).2 u = (alGet ad u).map
          (fun l => l ++ Graph.successors cs u)) := by
  intro cs
  induction cs with
  | nil =>
    intro dg ad
    refine ⟨rfl, rfl, ?_, ?_⟩
    · intro u
      cases h : alGet dg u <;> simp [h, Graph.successors]
    · intro u
      cases h : alGet ad u <;> simp [h, Graph.successors]
  | cons c rest ih =>
    intro dg ad
    rw [List.foldl_cons]
    obtain ⟨hk1, hk2, hv1, hv2⟩ :=
      ih (alUpdate dg c.targetNodeId (fun d => d + 1))
        (alUpdate ad c.sourceNodeId (fun l => l ++ [c.targetNodeId]))
    refine ⟨hk1.trans (alKeys_alUpdate _ _ _), hk2.trans (alKeys_alUpdate _ _ _),
      ?_, ?_⟩
    · intro u
      rw [hv1 u]
      by_cases ht : c.targetNodeId = u
      · rw [ht, alGet_alUpdate_self]
        rw [List.filter_cons, if_pos (by simp [ht])]
        cases alGet dg u
        · simp
        · simp
          omega
      · rw [alGet_alUpdate_ne _ _ _ _ ht]
        rw [List.filter_cons, if_neg (by simp [ht])]
    · intro u
      rw [hv2 u]
      by_cases hs : c.sourceNodeId = u
      · rw [hs, alGet_alUpdate_self]
        have hsucc : Graph.successors (c :: rest) u =
            c.targetNodeId :: Graph.successors rest u := by
          rw [Graph.successors, Graph.successors, List.filter_cons,
            if_pos (by simpa using hs), List.map_cons]
        rw [hsucc]
        cases alGet ad u <;> simp
      · rw [alGet_alUpdate_ne _ _ _ _ hs]
        have hsucc : Graph.successors (c :: rest) u = Graph.successors rest u := by
          rw [Graph.successors, Graph.successors, List.filter_cons,
            if_neg (by simpa using hs)]
        rw [hsucc]

theorem alKeys_map_const {α : Type} (ids : List String) (x : α) :
    alKeys (ids.map (fun i => (i, x))) = ids := by
  induction ids with
  | nil => rfl
  | cons i rest ih =>
    simp only [List.map_cons, alKeys] at ih ⊢
    rw [ih]

theorem buildGraph_spec (ids : List String) (conns : List Graph.Conn) :
    alKeys (Graph.buildGraph ids conns).1 = ids ∧
    alKeys (Graph.buildGraph ids conns).2 = ids ∧
    (∀ u ∈ ids, alGet (Graph.buildGraph ids conns).1 u =
      some (Graph.remCount conns [] u : Int)) ∧
    (∀ u ∈ ids, alGet (Graph.buildGraph ids conns).2 u =
      some (Graph.successors conns u)) := by
  obtain ⟨hk1, hk2, hv1, hv2⟩ := buildGraph_fold_spec conns
    (ids.map (fun i => (i, (0 : Int)))) (ids.map (fun i => (i, ([] : List String))))
  have hkeys1 : alKeys (Graph.buildGraph ids conns).1 = ids := by
    rw [Graph.buildGraph]
    exact hk1.trans (alKeys_map_const ids 0)
  have hkeys2 : alKeys (Graph.buildGraph ids conns).2 = ids := by
    rw [Graph.buildGraph]
    exact hk2.trans (alKeys_map_const ids [])
  refine ⟨hkeys1, hkeys2, ?_, ?_⟩
  · intro u hu
    rw [Graph.buildGraph]
    rw [show alGet (conns.foldl
        (fun acc c =>
          (alUpdate acc.1 c.targetNodeId (fun d => d + 1),
           alUpdate acc.2 c.sourceNodeId (fun l => l ++ [c.targetNodeId])))
        (ids.map (fun i => (i, (0 : Int))),
          ids.map (fun i => (i, ([] : List String))))).1 u =
      (alGet (ids.map (fun i => (i, (0 : Int)))) u).map
        (fun v => v +
          ((conns.filter (fun c => decide (c.targetNodeId = u))).length : Int))
      from hv1 u]
    rw [alGet_const_of_mem ids _ u hu]
    have hpred : conns.filter (fun c => decide (c.targetNodeId = u)) =
        conns.filter (fun c =>
          decide (c.targetNodeId = u ∧ c.sourceNodeId ∉ ([] : List String))) := by
      apply List.filter_congr
      intro c _
      simp
    rw [Graph.remCount, ← hpred]
    simp
  · intro u hu
    rw [Graph.buildGraph]
    rw [show alGet (conns.foldl
        (fun acc c =>
          (alUpdate acc.1 c.targetNodeId (fun d => d + 1),
           alUpdate acc.2 c.sourceNodeId (fun l => l ++ [c.targetNodeId])))
        (ids.map (fun i => (i, (0 : Int))),
          ids.map (fun i => (i, ([] : List String))))).2 u =
      (alGet (ids.map (fun i => (i, ([] : List String)))) u).map
        (fun l => l ++ Graph.successors conns u)
      from hv2 u]
    rw [alGet_const_of_mem ids _ u hu]
    simp

/-- Effect of the inner for-loop over the dequeued node's neighbor list:
every neighbor's in-degree drops by its multiplicity, other entries are
untouched, and exactly the neighbors whose in-degree equals their
multiplicity get appended to the queue (once each). -/
theorem kahnFold_spec :
    ∀ (ns : List String) (deg : List (String × Int)) (queue : List String),
      (∀ u ∈ ns, u ∈ alKeys deg) →
      (∀ u ∈ ns, ∃ v : Int, alGet deg u = some v ∧ (ns.count u : Int) ≤ v) →
      alKeys (ns.foldl Graph.kahnStep (deg, queue)).1 = alKeys deg ∧
      (∀ u, u ∉ ns →
        alGet (ns.foldl Graph.kahnStep (deg, queue)).1 u = alGet deg u) ∧
      (∀ u, u ∈ ns →
        alGet (ns.foldl Graph.kahnStep (deg, queue)).1 u =
          (alGet deg u).map (fun v => v - (ns.count u : Int))) ∧
      ∃ enq : List String,
        (ns.foldl Graph.kahnStep (deg, queue)).2 = queue ++ enq ∧ enq.Nodup ∧
        (∀ u, u ∈ enq ↔ u ∈ ns ∧ alGet deg u = some ((ns.count u : Int))) := by
  intro ns
  induction ns with
  | nil =>
    intro deg queue _ _
    refine ⟨rfl, fun u _ => rfl, fun u hu => absurd hu (by simp), [], by simp, by simp,
      by simp⟩
  | cons t rest ih =>
    intro deg queue hsub hge
    obtain ⟨v, hv, hcnt⟩ := hge t (by simp)
    have hcnt1 : (rest.count t : Int) + 1 ≤ v := by
      rw [List.count_cons_self] at hcnt
      push_cast at hcnt
      omega
    have hstep : Graph.kahnStep (deg, queue) t =
        (alSet deg t (v - 1), if v - 1 = 0 then queue ++ [t] else queue) := by
      rw [Graph.kahnStep]
      simp [hv]
    rw [List.foldl_cons, hstep]
    have htk : t ∈ alKeys deg := hsub t (by simp)
    have hkeys1 : alKeys (alSet deg t (v - 1)) = alKeys deg :=
      alKeys_alSet_of_mem deg t _ htk
    have hsub2 : ∀ u ∈ rest, u ∈ alKeys (alSet deg t (v - 1)) := by
      intro u hu
      rw [hkeys1]
      exact hsub u (by simp [hu])
    have hge2 : ∀ u ∈ rest, ∃ w : Int,
        alGet (alSet deg t (v - 1)) u = some w ∧ (rest.count u : Int) ≤ w := by
      intro u hu
      by_cases hut : u = t
      · subst hut
        exact ⟨v - 1, alGet_alSet_self deg u _, by omega⟩
      · obtain ⟨w, hw, hcw⟩ := hge u (by simp [hu])
        refine ⟨w, ?_, ?_⟩
        · rw [alGet_alSet_ne deg t u _ (fun h => hut h.symm), hw]
        · rw [List.count_cons_of_ne hut] at hcw
          exact hcw
    obtain ⟨hk, hout, hin, enq2, heq2, hnodup2, hiff2⟩ :=
      ih (alSet deg t (v - 1)) (if v - 1 = 0 then queue ++ [t] else queue) hsub2 hge2
    refine ⟨hk.trans hkeys1, ?_, ?_, ?_⟩
    · intro u hu
      have hut : u ≠ t := fun h => hu (by simp [h])
      rw [hout u (fun h => hu (by simp [h]))]
      exact alGet_alSet_ne deg t u _ (fun h => hut h.symm)
    · intro u hu
      by_cases hut : u = t
      · subst hut
        by_cases hur : u ∈ rest
        · rw [hin u hur, alGet_alSet_self, hv]
          dsimp only [Option.map]
          rw [List.count_cons_self]
          congr 1
          push_cast
          ring
        · rw [hout u hur, alGet_alSet_self, hv]
          dsimp only [Option.map]
          rw [List.count_cons_self, List.count_eq_zero.mpr hur]
          norm_num
      · have hur : u ∈ rest := by
          rcases List.mem_cons.mp hu with h | h
          · exact absurd h hut
          · exact h
        rw [hin u hur, alGet_alSet_ne deg t u _ (fun h => hut h.symm),
          List.count_cons_of_ne hut]
    · by_cases hd : v - 1 = 0
      · rw [if_pos hd] at heq2 ⊢
        refine ⟨t :: enq2, ?_, ?_, ?_⟩
        · rw [heq2, List.append_assoc]
          rfl
        · rw [List.nodup_cons]
          refine ⟨?_, hnodup2⟩
          intro hmem
          obtain ⟨htr, hteq⟩ := (hiff2 t).mp hmem
          rw [alGet_alSet_self] at hteq
          have : (rest.count t : Int) = v - 1 := by
            simpa using hteq.symm
          have hpos : 0 < rest.count t := List.count_pos_iff.mpr htr
          omega
        · intro u
          by_cases hut : u = t
          · subst hut
            constructor
            · intro _
              refine ⟨by simp, ?_⟩
              rw [hv, List.count_cons_self]
              simp only [Option.some.injEq]
              push_cast
              omega
            · intro _
              simp
          · rw [List.mem_cons, List.mem_cons, List.count_cons_of_ne hut]
            have hiffu := hiff2 u
            rw [alGet_alSet_ne deg t u _ (fun h => hut h.symm)] at hiffu
            constructor
            · intro hmu
              rcases hmu with hmu | hmu
              · exact absurd hmu hut
              · obtain ⟨h1, h2⟩ := hiffu.mp hmu
                exact ⟨Or.inr h1, h2⟩
            · rintro ⟨h1, h2⟩
              rcases h1 with h1 | h1
              · exact absurd h1 hut
              · exact Or.inr (hiffu.mpr ⟨h1, h2⟩)
      · rw [if_neg hd] at heq2 ⊢
        refine ⟨enq2, heq2, hnodup2, ?_⟩
        intro u
        by_cases hut : u = t
        · subst hut
          have hiffu := hiff2 u
          rw [alGet_alSet_self] at hiffu
          constructor
          · intro hmu
            obtain ⟨h1, h2⟩ := hiffu.mp hmu
            have hc : (rest.count u : Int) = v - 1 := by
              simpa using h2.symm
            refine ⟨by simp, ?_⟩
            rw [hv, List.count_cons_self]
            simp only [Option.some.injEq]
            push_cast
            omega
          · rintro ⟨-, h2⟩
            rw [hv, List.count_cons_self] at h2
            have hveq : v = (rest.count u : Int) + 1 := by
              simp only [Option.some.injEq] at h2
              push_cast at h2
              omega
            have hpos : 0 < rest.count u := by omega
            apply hiffu.mpr
            refine ⟨List.count_pos_iff.mp hpos, ?_⟩
            simp only [Option.some.injEq]
            omega
        · have hiffu := hiff2 u
          rw [alGet_alSet_ne deg t u _ (fun h => hut h.symm)] at hiffu
          rw [hiffu, List.mem_cons, List.count_cons_of_ne hut]
          constructor
          · rintro ⟨h1, h2⟩
            exact ⟨Or.inr h1, h2⟩
          · rintro ⟨h1, h2⟩
            rcases h1 with h1 | h1
            · exact absurd h1 hut
            · exact ⟨h1, h2⟩

/-- Emitting one more node: its outgoing-edge multiplicities are exactly
what each remaining in-degree drops by, and they never exceed it. -/
theorem remCount_snoc (conns : List Graph.Conn) (result : List String)
    (current u : String) (hcur : current ∉ result) :
    (Graph.successors conns current).count u ≤ Graph.remCount conns result u ∧
    Graph.remCount conns (result ++ [current]) u =
      Graph.remCount conns result u - (Graph.successors conns current).count u := by
  induction conns with
  | nil => exact ⟨Nat.le_refl 0, rfl⟩
  | cons c cs ihc =>
    obtain ⟨ih1, ih2⟩ := ihc
    have hsucc_cons : Graph.successors (c :: cs) current =
        (if c.sourceNodeId = current then
          c.targetNodeId :: Graph.successors cs current
         else Graph.successors cs current) := by
      rw [Graph.successors, Graph.successors, List.filter_cons]
      by_cases h : c.sourceNodeId = current
      · rw [if_pos (by simpa using h), if_pos h, List.map_cons]
      · rw [if_neg (by simpa using h), if_neg h]
    have hrem_cons : ∀ res : List String, Graph.remCount (c :: cs) res u =
        (if c.targetNodeId = u ∧ c.sourceNodeId ∉ res then 1 else 0) +
          Graph.remCount cs res u := by
      intro res
      rw [Graph.remCount, Graph.remCount, List.filter_cons]
      by_cases h : c.targetNodeId = u ∧ c.sourceNodeId ∉ res
      · rw [if_pos (by simpa using h), if_pos h, List.length_cons]
        omega
      · rw [if_neg (by simpa using h), if_neg h]
        omega
    rw [hsucc_cons, hrem_cons result, hrem_cons (result ++ [current])]
    by_cases hsrc : c.sourceNodeId = current
    · rw [if_pos hsrc]
      by_cases htgt : c.targetNodeId = u
      · have h1 : c.targetNodeId = u ∧ c.sourceNodeId ∉ result :=
          ⟨htgt, hsrc ▸ hcur⟩
        have h2 : ¬(c.targetNodeId = u ∧ c.sourceNodeId ∉ result ++ [current]) := by
          rintro ⟨-, hni⟩
          exact hni (by simp [hsrc])
        rw [if_pos h1, if_neg h2, htgt, List.count_cons_self]
        omega
      · have hne : u ≠ c.targetNodeId := fun h => htgt h.symm
        rw [List.count_cons_of_ne hne]
        by_cases hmem : c.targetNodeId = u ∧ c.sourceNodeId ∉ result
        · exact absurd hmem.1 htgt
        · have h2 : ¬(c.targetNodeId = u ∧ c.sourceNodeId ∉ result ++ [current]) := by
            rintro ⟨ht, -⟩
            exact htgt ht
          rw [if_neg hmem, if_neg h2]
          omega
    · rw [if_neg hsrc]
      by_cases hmem : c.targetNodeId = u ∧ c.sourceNodeId ∉ result
      · have h2 : c.targetNodeId = u ∧ c.sourceNodeId ∉ result ++ [current] :=
          ⟨hmem.1, by simp [hmem.2, hsrc]⟩
        rw [if_pos hmem, if_pos h2]
        omega
      · have h2 : ¬(c.targetNodeId = u ∧ c.sourceNodeId ∉ result ++ [current]) := by
          rintro ⟨ht, hni⟩
          exact hmem ⟨ht, fun hin => hni (by simp [hin])⟩
        rw [if_neg hmem, if_neg h2]
        omega

theorem successors_target (conns : List Graph.Conn) (u t : String)
    (ht : t ∈ Graph.successors conns u) :
    ∃ c ∈ conns, c.targetNodeId = t ∧ c.sourceNodeId = u := by
  rw [Graph.successors] at ht
  simp only [List.mem_map, List.mem_filter] at ht
  obtain ⟨c, ⟨hc, hs⟩, htg⟩ := ht
  exact ⟨c, hc, htg, by simpa using hs⟩

theorem remCount_zero_sources (conns : List Graph.Conn) (result : List String)
    (u : String) (h : Graph.remCount conns result u = 0) :
    ∀ c ∈ conns, c.targetNodeId = u → c.sourceNodeId ∈ result := by
  rw [Graph.remCount, List.length_eq_zero] at h
  intro c hc htgt
  by_contra hni
  have hmem : c ∈ conns.filter (fun c =>
      decide (c.targetNodeId = u ∧ c.sourceNodeId ∉ result)) :=
    List.mem_filter.mpr ⟨hc, by simp [htgt, hni]⟩
  rw [h] at hmem
  simp at hmem

theorem alGet_some_mem {α : Type} (m : List (String × α)) (u : String) (v : α)
    (h : alGet m u = some v) : (u, v) ∈ m := by
  induction m with
  | nil => cases h
  | cons p rest ih =>
    obtain ⟨k, w⟩ := p
    rw [alGet] at h
    by_cases hp : k = u
    · rw [if_pos hp] at h
      cases h
      cases hp
      exact List.mem_cons.mpr (Or.inl rfl)
    · rw [if_neg hp] at h
      exact List.mem_cons.mpr (Or.inr (ih h))

/-- Main loop invariant of the Kahn sort: with sufficient fuel (more than
the number of still-unemitted nodes), the loop ends in a state satisfying
`KahnEnd`. -/
theorem kahnLoop_spec (conns : List Graph.Conn) (ids : List String)
    (adj : List (String × List String))
    (htgt : ∀ c ∈ conns, c.targetNodeId ∈ ids)
    (hadj : ∀ u ∈ ids, alGet adj u = some (Graph.successors conns u)) :
    ∀ (fuel : Nat) (deg : List (String × Int)) (queue result : List String),
      Graph.KahnInv conns ids deg queue result →
      ids.length - result.length < fuel →
      Graph.KahnEnd conns ids (Graph.kahnLoop adj fuel deg queue result) := by
  intro fuel
  induction fuel with
  | zero =>
    intro deg queue result _ hb
    omega
  | succ fuel ih =>
    intro deg queue result hinv hb
    cases queue with
    | nil =>
      rw [Graph.kahnLoop]
      refine ⟨by simpa using hinv.nodupRQ, hinv.resSub, ?_, hinv.ordered⟩
      intro u hu
      have := hinv.zeroIff u hu
      simpa using this
    | cons current restQ =>
      have hcur_ids : current ∈ ids := hinv.queueSub current (by simp)
      have hcur_res : current ∉ result := by
        intro hr
        have hnd2 := hinv.nodupRQ
        rw [List.nodup_append] at hnd2
        exact hnd2.2.2 hr (by simp)
      have hns : (alGet adj current).getD [] = Graph.successors conns current := by
        rw [hadj current hcur_ids]
        rfl
      have hsub : ∀ u ∈ Graph.successors conns current, u ∈ alKeys deg := by
        intro u hu
        rw [hinv.degKeys]
        obtain ⟨c, hc, htg, -⟩ := successors_target conns current u hu
        exact htg ▸ htgt c hc
      have hcset : ∀ u ∈ Graph.successors conns current, u ∈ ids := by
        intro u hu
        have := hsub u hu
        rwa [hinv.degKeys] at this
      have hge : ∀ u ∈ Graph.successors conns current, ∃ v : Int,
          alGet deg u = some v ∧
          ((Graph.successors conns current).count u : Int) ≤ v := by
        intro u hu
        refine ⟨(Graph.remCount conns result u : Int),
          hinv.degSpec u (hcset u hu), ?_⟩
        have := (remCount_snoc conns result current u hcur_res).1
        exact_mod_cast this
      obtain ⟨hfk, hfout, hfin, enq, hfeq, hfnodup, hfiff⟩ :=
        kahnFold_spec (Graph.successors conns current) deg restQ hsub hge
      rw [Graph.kahnLoop]
      simp only [hns, hfeq]
      -- fresh-queue facts about the enqueued nodes
      have henq_fresh : ∀ u ∈ enq,
          u ∈ ids ∧ u ∉ result ∧ u ≠ current ∧ u ∉ restQ := by
        intro u hu
        obtain ⟨hns2, hdeg2⟩ := (hfiff u).mp hu
        have hu_ids : u ∈ ids := hcset u hns2
        have hcnt_pos : 0 < (Graph.successors conns current).count u :=
          List.count_pos_iff.mpr hns2
        have hrem : Graph.remCount conns result u =
            (Graph.successors conns current).count u := by
          have := hinv.degSpec u hu_ids
          rw [this] at hdeg2
          exact_mod_cast (Option.some.injEq _ _ ▸ hdeg2 : _)
        have hrem_pos : Graph.remCount conns result u ≠ 0 := by omega
        have hnot : ¬(u ∈ result ∨ u ∈ current :: restQ) := by
          intro hor
          exact hrem_pos ((hinv.zeroIff u hu_ids).mp hor)
        push_neg at hnot
        refine ⟨hu_ids, hnot.1, ?_, ?_⟩
        · intro heq2
          exact hnot.2 (by simp [heq2])
        · intro hr
          exact hnot.2 (by simp [hr])
      have hrem_cur : Graph.remCount conns result current = 0 :=
        (hinv.zeroIff current hcur_ids).mp (Or.inr (by simp))
      -- the new invariant
      have hinv2 : Graph.KahnInv conns ids
          ((Graph.successors conns current).foldl Graph.kahnStep (deg, restQ)).1
          (restQ ++ enq) (result ++ [current]) := by
        refine ⟨hfk.trans hinv.degKeys, ?_, ?_, ?_, ?_, ?_, ?_⟩
        · intro u hu
          by_cases hmem : u ∈ Graph.successors conns current
          · rw [hfin u hmem, hinv.degSpec u hu]
            obtain ⟨hle, heq⟩ := remCount_snoc conns result current u hcur_res
            rw [heq]
            dsimp only [Option.map]
            congr 1
            omega
          · rw [hfout u hmem, hinv.degSpec u hu]
            obtain ⟨hle, heq⟩ := remCount_snoc conns result current u hcur_res
            rw [heq, List.count_eq_zero.mpr hmem, Nat.sub_zero]
        · intro x hx
          rcases List.mem_append.mp hx with hx | hx
          · exact hinv.resSub x hx
          · simp only [List.mem_singleton] at hx
            exact hx ▸ hcur_ids
        · intro x hx
          rcases List.mem_append.mp hx with hx | hx
          · exact hinv.queueSub x (by simp [hx])
          · exact (henq_fresh x hx).1
        · -- nodup of result ++ [current] ++ (restQ ++ enq)
          have hold : (result ++ [current] ++ restQ).Nodup := by
            have := hinv.nodupRQ
            rwa [List.append_cons] at this
          rw [List.nodup_append]
          refine ⟨?_, ?_, ?_⟩
          · have := hold.sublist (List.sublist_append_left _ _)
            exact this
          · rw [List.nodup_append]
            refine ⟨?_, hfnodup, ?_⟩
            · have h1 := hinv.nodupRQ
              rw [List.nodup_append] at h1
              exact (List.nodup_cons.mp h1.2.1).2
            · intro a ha hb
              exact (henq_fresh a hb).2.2.2 ha
          · intro a ha hb
            rcases List.mem_append.mp ha with ha | ha
            · rcases List.mem_append.mp hb with hb | hb
              · have h1 := hinv.nodupRQ
                rw [List.nodup_append] at h1
                exact h1.2.2 ha (by simp [hb])
              · exact (henq_fresh a hb).2.1 ha
            · simp only [List.mem_singleton] at ha
              subst ha
              rcases List.mem_append.mp hb with hb | hb
              · have h1 := hinv.nodupRQ
                rw [List.nodup_append] at h1
                have := h1.2.1
                rw [List.nodup_cons] at this
                exact this.1 hb
              · exact (henq_fresh a hb).2.2.1 rfl
        · intro u hu
          obtain ⟨hle, heq⟩ := remCount_snoc conns result current u hcur_res
          rw [heq]
          constructor
          · intro hor
            rcases hor with hor | hor
            · rcases List.mem_append.mp hor with hr | hr
              · have : Graph.remCount conns result u = 0 :=
                  (hinv.zeroIff u hu).mp (Or.inl hr)
                omega
              · simp only [List.mem_singleton] at hr
                subst hr
                omega
            · rcases List.mem_append.mp hor with hr | hr
              · have : Graph.remCount conns result u = 0 :=
                  (hinv.zeroIff u hu).mp (Or.inr (by simp [hr]))
                omega
              · obtain ⟨-, hdeg2⟩ := (hfiff u).mp hr
                have := hinv.degSpec u hu
                rw [this] at hdeg2
                have : Graph.remCount conns result u =
                    (Graph.successors conns current).count u := by
                  exact_mod_cast (Option.some.injEq _ _ ▸ hdeg2 : _)
                omega
          · intro hzero
            by_cases hcnt0 : (Graph.successors conns current).count u = 0
            · have : Graph.remCount conns result u = 0 := by omega
              rcases (hinv.zeroIff u hu).mpr this with hr | hr
              · exact Or.inl (by simp [hr])
              · rcases List.mem_cons.mp hr with hr | hr
                · exact Or.inl (by simp [hr])
                · exact Or.inr (by simp [hr])
            · have hmem : u ∈ Graph.successors conns current := by
                by_contra hnm
                exact hcnt0 (List.count_eq_zero.mpr hnm)
              have : Graph.remCount conns result u =
                  (Graph.successors conns current).count u := by omega
              refine Or.inr (List.mem_append.mpr (Or.inr ?_))
              apply (hfiff u).mpr
              refine ⟨hmem, ?_⟩
              rw [hinv.degSpec u hu, this]
        · intro c hc htc
          rcases List.mem_append.mp htc with htc | htc
          · obtain ⟨hsm, hidx⟩ := hinv.ordered c hc htc
            refine ⟨List.mem_append.mpr (Or.inl hsm), ?_⟩
            rw [List.indexOf_append_of_mem hsm, List.indexOf_append_of_mem htc]
            exact hidx
          · simp only [List.mem_singleton] at htc
            have hsm : c.sourceNodeId ∈ result :=
              remCount_zero_sources conns result current hrem_cur c hc htc
            refine ⟨List.mem_append.mpr (Or.inl hsm), ?_⟩
            rw [List.indexOf_append_of_mem hsm, htc,
              List.indexOf_append_of_not_mem hcur_res]
            have h1 : result.indexOf c.sourceNodeId < result.length :=
              List.indexOf_lt_length.mpr hsm
            simp
            omega
      have hlen2 : (result ++ [current]).length ≤ ids.length := by
        have hnod : (result ++ [current]).Nodup := by
          have := hinv2.nodupRQ
          rw [List.nodup_append] at this
          exact this.1
        have hsubs : (result ++ [current]) ⊆ ids := by
          intro x hx
          exact hinv2.resSub x hx
        exact (hnod.subperm hsubs).length_le
      have hb2 : ids.length - (result ++ [current]).length < fuel := by
        rw [List.length_append, List.length_singleton]
        rw [List.length_append, List.length_singleton] at hlen2
        omega
      exact ih _ _ _ hinv2 hb2

/-- The state `getExecutionOrder` starts the Kahn loop in satisfies the
loop invariant, so the final list satisfies `KahnEnd`. -/
theorem getExecutionOrder_kahnEnd (w : Graph.Workflow)
    (hnd : (Graph.nodeIds w).Nodup)
    (hval : Graph.ValidEndpoints w) :
    Graph.KahnEnd (alValues w.connections) (Graph.nodeIds w)
      (Graph.kahnLoop
        (Graph.buildGraph (Graph.nodeIds w) (alValues w.connections)).2
        ((Graph.nodeIds w).length + (alValues w.connections).length + 1)
        (Graph.buildGraph (Graph.nodeIds w) (alValues w.connections)).1
        (((Graph.buildGraph (Graph.nodeIds w) (alValues w.connections)).1.filter
          (fun p => p.2 = 0)).map Prod.fst)
        []) := by
  obtain ⟨hk1, hk2, hv1, hv2⟩ :=
    buildGraph_spec (Graph.nodeIds w) (alValues w.connections)
  have hndk : (alKeys (Graph.buildGraph (Graph.nodeIds w)
      (alValues w.connections)).1).Nodup := by
    rw [hk1]
    exact hnd
  apply kahnLoop_spec (alValues w.connections) (Graph.nodeIds w)
    (Graph.buildGraph (Graph.nodeIds w) (alValues w.connections)).2
    (fun c hc => (hval c hc).2) hv2
  · refine ⟨hk1, hv1, ?_, ?_, ?_, ?_, ?_⟩
    · intro x hx
      simp at hx
    · intro x hx
      obtain ⟨p, hp, hp1⟩ := List.mem_map.mp hx
      have hpm := List.mem_of_mem_filter hp
      have : p.1 ∈ alKeys (Graph.buildGraph (Graph.nodeIds w)
          (alValues w.connections)).1 := List.mem_map.mpr ⟨p, hpm, rfl⟩
      rw [hk1] at this
      exact hp1 ▸ this
    · rw [List.nil_append]
      have hsl : List.Sublist
          (((Graph.buildGraph (Graph.nodeIds w)
            (alValues w.connections)).1.filter
              (fun p => p.2 = 0)).map Prod.fst)
          (alKeys (Graph.buildGraph (Graph.nodeIds w)
            (alValues w.connections)).1) :=
        List.Sublist.map Prod.fst (List.filter_sublist _)
      exact List.Nodup.sublist hsl hndk
    · intro u hu
      constructor
      · rintro (h | h)
        · simp at h
        · obtain ⟨p, hp, hp1⟩ := List.mem_map.mp h
          have hpf := List.mem_filter.mp hp
          have hp0 : p.2 = 0 := by simpa using hpf.2
          have hget : alGet (Graph.buildGraph (Graph.nodeIds w)
              (alValues w.connections)).1 p.1 = some p.2 :=
            alGet_of_mem_nodup _ p hpf.1 hndk
          rw [hp1, hv1 u hu] at hget
          have h2 := Option.some.inj hget
          rw [hp0] at h2
          exact_mod_cast h2
      · intro h0
        right
        have hget : alGet (Graph.buildGraph (Graph.nodeIds w)
            (alValues w.connections)).1 u = some 0 := by
          rw [hv1 u hu, h0]
          norm_num
        have hmem := alGet_some_mem _ u 0 hget
        exact List.mem_map.mpr
          ⟨(u, 0), List.mem_filter.mpr ⟨hmem, by simp⟩, rfl⟩
    · intro c hc htc
      simp at htc
  · simp only [List.length_nil, Nat.sub_zero]
    exact Nat.lt_succ_of_le (Nat.le_add_right _ _)

/-- Pigeonhole: if every element of a set (contained in a finite id list)
has a predecessor in the set, the relation has a cycle. -/
theorem exists_cycle_of_preds (ids : List String) (R : String → String → Prop)
    (P : String → Prop)
    (hsub : ∀ u, P u → u ∈ ids)
    (hpred : ∀ u, P u → ∃ v, P v ∧ R v u)
    (u0 : String) (h0 : P u0) :
    ∃ a, Relation.TransGen R a a := by
  have hpred2 : ∀ u, ∃ v, P u → P v ∧ R v u := by
    intro u
    by_cases h : P u
    · obtain ⟨v, hv⟩ := hpred u h
      exact ⟨v, fun _ => hv⟩
    · exact ⟨u, fun h2 => absurd h2 h⟩
  choose f hf using hpred2
  have hPg : ∀ n, P (f^[n] u0) := by
    intro n
    induction n with
    | zero => simpa using h0
    | succ n ihn =>
      rw [Function.iterate_succ_apply']
      exact (hf _ ihn).1
  have hRg : ∀ n, R (f^[n + 1] u0) (f^[n] u0) := by
    intro n
    rw [Function.iterate_succ_apply']
    exact (hf _ (hPg n)).2
  have hchain : ∀ i d, Relation.TransGen R (f^[i + d + 1] u0) (f^[i] u0) := by
    intro i d
    induction d with
    | zero => exact Relation.TransGen.single (hRg i)
    | succ d ihd =>
      have h1 : i + (d + 1) + 1 = (i + d + 1) + 1 := by omega
      rw [h1]
      exact Relation.TransGen.head (hRg (i + d + 1)) ihd
  have hcard : (ids.toFinset).card < (Finset.range (ids.length + 1)).card := by
    rw [Finset.card_range]
    exact Nat.lt_succ_of_le ids.toFinset_card_le
  have hmaps : ∀ n ∈ Finset.range (ids.length + 1), f^[n] u0 ∈ ids.toFinset :=
    fun n _ => List.mem_toFinset.mpr (hsub _ (hPg n))
  obtain ⟨i, hi, j, hj, hne, heq⟩ :=
    Finset.exists_ne_map_eq_of_card_lt_of_maps_to hcard hmaps
  rcases hne.lt_or_lt with hlt | hlt
  · refine ⟨f^[i] u0, ?_⟩
    have h1 : j = i + (j - i - 1) + 1 := by omega
    have hc := hchain i (j - i - 1)
    rw [← h1] at hc
    rwa [← heq] at hc
  · refine ⟨f^[j] u0, ?_⟩
    have h1 : i = j + (i - j - 1) + 1 := by omega
    have hc := hchain j (i - j - 1)
    rw [← h1] at hc
    rwa [heq] at hc

/-- A complete Kahn result (containing every node id) orders every
connection source before its target, so the connection set is acyclic. -/
theorem kahnEnd_complete_acyclic (conns : List Graph.Conn) (ids : List String)
    (final : List String)
    (hend : Graph.KahnEnd conns ids final)
    (htgt : ∀ c ∈ conns, c.targetNodeId ∈ ids)
    (hcomp : ∀ u ∈ ids, u ∈ final) :
    ¬ Graph.HasCycle conns := by
  rintro ⟨a, ha⟩
  have hmono : ∀ x y, Relation.TransGen (Graph.connStep conns) x y →
      final.indexOf x < final.indexOf y := by
    intro x y hxy
    induction hxy with
    | single h =>
      obtain ⟨c, hc, hs, ht⟩ := h
      have h2 := hend.ordered c hc (hcomp _ (htgt c hc))
      rw [hs, ht] at h2
      exact h2.2
    | tail hab hbc ih =>
      obtain ⟨c, hc, hs, ht⟩ := hbc
      have h2 := hend.ordered c hc (hcomp _ (htgt c hc))
      rw [hs, ht] at h2
      exact Nat.lt_trans ih h2.2
  exact absurd (hmono a a ha) (Nat.lt_irrefl _)

/-- If the connection set is acyclic, the Kahn result contains every node
id: otherwise the unemitted nodes would all keep an unemitted predecessor,
which forces a cycle by pigeonhole. -/
theorem kahnEnd_acyclic_complete (conns : List Graph.Conn) (ids : List String)
    (final : List String)
    (hend : Graph.KahnEnd conns ids final)
    (hsrc : ∀ c ∈ conns, c.sourceNodeId ∈ ids)
    (hacy : ¬ Graph.HasCycle conns) :
    ∀ u ∈ ids, u ∈ final := by
  by_contra hnc
  push_neg at hnc
  obtain ⟨u0, hu0, hnf⟩ := hnc
  apply hacy
  apply exists_cycle_of_preds ids (Graph.connStep conns)
    (fun u => u ∈ ids ∧ u ∉ final) (fun u hu => hu.1) ?_ u0 ⟨hu0, hnf⟩
  intro u hu
  have hrem : Graph.remCount conns final u ≠ 0 := by
    intro h
    exact hu.2 ((hend.memIff u hu.1).mpr h)
  have hne : (conns.filter (fun c =>
      decide (c.targetNodeId = u ∧ c.sourceNodeId ∉ final))) ≠ [] := by
    intro h
    apply hrem
    rw [Graph.remCount, h]
    rfl
  obtain ⟨c, hcmem⟩ := List.exists_mem_of_ne_nil _ hne
  have hcf := List.mem_filter.mp hcmem
  have hcp : c.targetNodeId = u ∧ c.sourceNodeId ∉ final := by
    simpa using hcf.2
  exact ⟨c.sourceNodeId, ⟨hsrc c hcf.1, hcp.2⟩, c, hcf.1, rfl, hcp.1⟩

/-- Case analysis on the final length check of `getExecutionOrder`, stated
over an abstract final list satisfying `KahnEnd`. -/
theorem getExecutionOrder_cases (w : Graph.Workflow) (final : List String)
    (hend : Graph.KahnEnd (alValues w.connections) (Graph.nodeIds w) final)
    (hgeo : Graph.getExecutionOrder w =
      if final.length ≠ (Graph.nodeIds w).length then
        Except.error "Workflow contains cycles and cannot be executed"
      else Except.ok final)
    (hnd : (Graph.nodeIds w).Nodup)
    (hval : Graph.ValidEndpoints w) :
    (¬ Graph.HasCycle (alValues w.connections) →
      ∃ order, Graph.getExecutionOrder w = Except.ok order ∧
        order.Perm (Graph.nodeIds w) ∧
        ∀ c ∈ alValues w.connections,
          order.indexOf c.sourceNodeId < order.indexOf c.targetNodeId) ∧
    (Graph.HasCycle (alValues w.connections) →
      Graph.getExecutionOrder w =
        Except.error "Workflow contains cycles and cannot be executed") := by
  constructor
  · intro hacy
    have hcomp : ∀ u ∈ Graph.nodeIds w, u ∈ final :=
      kahnEnd_acyclic_complete _ _ _ hend (fun c hc => (hval c hc).1) hacy
    have hsub2 : List.Subperm (Graph.nodeIds w) final :=
      hnd.subperm (fun u hu => hcomp u hu)
    have hsub1 : List.Subperm final (Graph.nodeIds w) :=
      hend.nodup.subperm hend.sub
    have hlen : final.length = (Graph.nodeIds w).length :=
      Nat.le_antisymm hsub1.length_le hsub2.length_le
    refine ⟨final, ?_, ?_, ?_⟩
    · rw [hgeo, if_neg (by omega)]
    · exact hsub1.perm_of_length_le (by omega)
    · intro c hc
      exact (hend.ordered c hc (hcomp _ (hval c hc).2)).2
  · intro hcyc
    have hne : final.length ≠ (Graph.nodeIds w).length := by
      intro hlen
      have hsub1 : List.Subperm final (Graph.nodeIds w) :=
        hend.nodup.subperm hend.sub
      have hperm : final.Perm (Graph.nodeIds w) :=
        hsub1.perm_of_length_le (by omega)
      have hcomp : ∀ u ∈ Graph.nodeIds w, u ∈ final :=
        fun u hu => hperm.mem_iff.mpr hu
      exact kahnEnd_complete_acyclic _ _ _ hend
        (fun c hc => (hval c hc).2) hcomp hcyc
    rw [hgeo, if_pos hne]

/-- C1: for every workflow whose node ids are duplicate-free and whose
connections all join existing nodes, if the connection set is acyclic then
`getExecutionOrder` returns a permutation of the node ids in which every
connection's source node precedes its target node; if the connection set
contains a cycle, it returns the structural cycle error instead. -/
theorem claim_C1 (w : Graph.Workflow)
    (hnd : (Graph.nodeIds w).Nodup)
    (hval : Graph.ValidEndpoints w) :
    (¬ Graph.HasCycle (alValues w.connections) →
      ∃ order, Graph.getExecutionOrder w = Except.ok order ∧
        order.Perm (Graph.nodeIds w) ∧
        ∀ c ∈ alValues w.connections,
          order.indexOf c.sourceNodeId < order.indexOf c.targetNodeId) ∧
    (Graph.HasCycle (alValues w.connections) →
      Graph.getExecutionOrder w =
        Except.error "Workflow contains cycles and cannot be executed") :=
  getExecutionOrder_cases w _ (getExecutionOrder_kahnEnd w hnd hval) rfl hnd hval

/-- Witness for C1: on the concrete linear workflow A → B → C (acyclic by
the DFS check), `getExecutionOrder` succeeds with a permutation of the node
ids respecting all connections. -/
theorem claim_C1_witness :
    ∃ order, Graph.getExecutionOrder Fix.wfLinear = Except.ok order ∧
      order.Perm (Graph.nodeIds Fix.wfLinear) ∧
      ∀ c ∈ alValues Fix.wfLinear.connections,
        order.indexOf c.sourceNodeId < order.indexOf c.targetNodeId := by
  have hstep : ∀ x y, Graph.connStep (alValues Fix.wfLinear.connections) x y →
      (if x = "A" then 0 else if x = "B" then 1 else 2) <
        (if y = "A" then (0 : Nat) else if y = "B" then 1 else 2) := by
    rintro x y ⟨c, hc, hs, ht⟩
    simp only [Fix.wfLinear, alValues, List.map_cons, List.map_nil,
      List.mem_cons, List.not_mem_nil, or_false] at hc
    rcases hc with rfl | rfl
    · subst hs
      subst ht
      decide
    · subst hs
      subst ht
      decide
  have hacy : ¬ Graph.HasCycle (alValues Fix.wfLinear.connections) := by
    rintro ⟨a, ha⟩
    have hmono : ∀ x y,
        Relation.TransGen (Graph.connStep (alValues Fix.wfLinear.connections)) x y →
        (if x = "A" then 0 else if x = "B" then 1 else 2) <
          (if y = "A" then (0 : Nat) else if y = "B" then 1 else 2) := by
      intro x y hxy
      induction hxy with
      | single h => exact hstep _ _ h
      | tail hab hbc ih => exact Nat.lt_trans ih (hstep _ _ hbc)
    exact absurd (hmono a a ha) (Nat.lt_irrefl _)
  have hval : Graph.ValidEndpoints Fix.wfLinear := by
    show ∀ c ∈ alValues Fix.wfLinear.connections,
      c.sourceNodeId ∈ Graph.nodeIds Fix.wfLinear ∧
      c.targetNodeId ∈ Graph.nodeIds Fix.wfLinear
    decide
  exact (claim_C1 Fix.wfLinear (by decide) hval).1 hacy

/-! The stop-on-error policy of the execution engine (claim C3). -/

theorem alGet_map_const {α β : Type} (m : List (String × α)) (x : β) :
    ∀ key, alGet (m.map (fun p => (p.1, x))) key = (alGet m key).map (fun _ => x) := by
  induction m with
  | nil =>
    intro key
    rfl
  | cons p rest ih =>
    intro key
    obtain ⟨k, v⟩ := p
    simp only [List.map_cons, alGet]
    by_cases hp : k = key
    · rw [if_pos hp, if_pos hp]
      rfl
    · rw [if_neg hp, if_neg hp, ih]

/-- The engine loop splits over an append as long as the first part did not
trigger the stop-on-error break. -/
theorem execLoop_append (w : Graph.Workflow) (e : String) :
    ∀ (l1 l2 : List String) (st : Graph.EngineState),
      (Graph.execLoop w e l1 st).stopped = false →
      Graph.execLoop w e (l1 ++ l2) st =
        Graph.execLoop w e l2 (Graph.execLoop w e l1 st) := by
  intro l1
  induction l1 with
  | nil =>
    intro l2 st _
    rfl
  | cons nid rest ih =>
    intro l2 st hstop
    rw [List.cons_append]
    cases hnode : alGet w.nodes nid with
    | none =>
      simp only [Graph.execLoop, hnode] at hstop ⊢
      exact ih l2 st hstop
    | some node =>
      simp only [Graph.execLoop, hnode] at hstop ⊢
      cases hsucc : (Graph.stepNode w e node nid st).1.success
      · simp [hsucc, Graph.shouldStopOnError] at hstop
      · simp only [hsucc, if_true] at hstop ⊢
        exact ih l2 _ hstop

/-- Once the loop has broken on an error, appending further nodes to the
order changes nothing: they are never executed. -/
theorem execLoop_stopped_append (w : Graph.Workflow) (e : String) :
    ∀ (l1 l2 : List String) (st : Graph.EngineState),
      st.stopped = false →
      (Graph.execLoop w e l1 st).stopped = true →
      Graph.execLoop w e (l1 ++ l2) st = Graph.execLoop w e l1 st := by
  intro l1
  induction l1 with
  | nil =>
    intro l2 st hst hstop
    rw [show Graph.execLoop w e [] st = st from rfl, hst] at hstop
    cases hstop
  | cons nid rest ih =>
    intro l2 st hst hstop
    rw [List.cons_append]
    cases hnode : alGet w.nodes nid with
    | none =>
      simp only [Graph.execLoop, hnode] at hstop ⊢
      exact ih l2 st hst hstop
    | some node =>
      simp only [Graph.execLoop, hnode] at hstop ⊢
      cases hsucc : (Graph.stepNode w e node nid st).1.success
      · simp [hsucc, Graph.shouldStopOnError]
      · simp only [hsucc, if_true] at hstop ⊢
        exact ih l2 _ hst hstop

/-- Effect of one successfully executed node on the engine state. -/
theorem execLoop_single_success (w : Graph.Workflow) (e : String)
    (node : Graph.GNode) (nid : String) (st : Graph.EngineState)
    (hnode : alGet w.nodes nid = some node)
    (hsucc : (Graph.stepNode w e node nid st).1.success = true) :
    Graph.execLoop w e [nid] st =
      { results := alSet st.results nid (Graph.stepNode w e node nid st).1,
        prevResults := alSet st.prevResults nid
          ((Graph.stepNode w e node nid st).1.data.getD .vUndefined),
        errors := st.errors,
        statuses := alSet st.statuses nid .completed,
        stopped := st.stopped } := by
  have hsn2 : (Graph.stepNode w e node nid st).2 =
      { st with statuses := (alSet st.statuses nid
          (if (Graph.stepNode w e node nid st).1.success then .completed
           else .error)) } := rfl
  simp only [Graph.execLoop, hnode, hsn2, hsucc, if_true]

/-- Effect of one failing node on the engine state under the default
stop-on-error policy: the result and error are recorded, the status goes to
error and the loop breaks. -/
theorem execLoop_single_failure (w : Graph.Workflow) (e : String)
    (node : Graph.GNode) (nid : String) (st : Graph.EngineState)
    (hnode : alGet w.nodes nid = some node)
    (hfail : (Graph.stepNode w e node nid st).1.success = false) :
    Graph.execLoop w e [nid] st =
      { results := alSet st.results nid (Graph.stepNode w e node nid st).1,
        prevResults := st.prevResults,
        errors := st.errors ++
          [(nid, ((Graph.stepNode w e node nid st).1.error.getD ""))],
        statuses := alSet st.statuses nid .error,
        stopped := true } := by
  have hsn2 : (Graph.stepNode w e node nid st).2 =
      { st with statuses := (alSet st.statuses nid
          (if (Graph.stepNode w e node nid st).1.success then .completed
           else .error)) } := rfl
  simp only [Graph.execLoop, hnode, hsn2, hfail, Graph.shouldStopOnError,
    Bool.false_eq_true, if_false, if_true]

/-- Running the first `k` steps of the order, all of them succeeding,
leaves the loop unbroken, records exactly the first `k` nodes' results,
and touches no status outside the executed prefix. -/
theorem runPrefix (w : Graph.Workflow) (e : String) (order : List String)
    (hnodes : ∀ nid ∈ order, nid ∈ alKeys w.nodes)
    (hnd : order.Nodup) :
    ∀ k, k ≤ order.length →
      (∀ j, j < k → Graph.stepOk w e order j = true) →
      (Graph.stepStateAt w e order k).stopped = false ∧
      alKeys (Graph.stepStateAt w e order k).results = order.take k ∧
      (∀ nid, nid ∉ order.take k →
        alGet (Graph.stepStateAt w e order k).statuses nid =
          alGet (Graph.initialEngineState w).statuses nid) := by
  intro k
  induction k with
  | zero =>
    intro _ _
    exact ⟨rfl, rfl, fun nid _ => rfl⟩
  | succ k ihk =>
    intro hk hok
    obtain ⟨ih1, ih2, ih3⟩ :=
      ihk (Nat.le_of_succ_le hk) (fun j hj => hok j (Nat.lt_succ_of_lt hj))
    have hklt : k < order.length := Nat.lt_of_succ_le hk
    obtain ⟨nid, hget⟩ : ∃ nid, order.get? k = some nid :=
      ⟨order.get ⟨k, hklt⟩, List.get?_eq_get hklt⟩
    have hmem_nid : nid ∈ order := List.get?_mem hget
    obtain ⟨node, hnodeq⟩ : ∃ node, alGet w.nodes nid = some node := by
      cases hh : alGet w.nodes nid with
      | none =>
        rw [alGet_eq_none_iff] at hh
        exact absurd (hnodes nid hmem_nid) hh
      | some node => exact ⟨node, rfl⟩
    have hget2 : order[k]? = some nid := by
      rw [← List.get?_eq_getElem?]
      exact hget
    have htake : order.take (k + 1) = order.take k ++ [nid] := by
      rw [List.take_succ, hget2]
      rfl
    have hdropk : order.drop k = nid :: order.drop (k + 1) := by
      rw [List.drop_eq_getElem_cons hklt]
      have h2 := (List.getElem?_eq_getElem (l := order) hklt).symm.trans hget2
      rw [Option.some.inj h2]
    have hnidtake : nid ∉ order.take k := by
      intro hmem
      have hnd2 : (order.take k ++ order.drop k).Nodup := by
        rw [List.take_append_drop]
        exact hnd
      rw [List.nodup_append] at hnd2
      exact hnd2.2.2 hmem (by rw [hdropk]; exact List.mem_cons_self _ _)
    have hstep : Graph.stepStateAt w e order (k + 1) =
        Graph.execLoop w e [nid] (Graph.stepStateAt w e order k) := by
      rw [Graph.stepStateAt, htake, execLoop_append w e _ _ _ ih1]
      rfl
    have hsucc : (Graph.stepNode w e node nid
        (Graph.stepStateAt w e order k)).1.success = true := by
      have h2 := hok k (Nat.lt_succ_self k)
      simp only [Graph.stepOk, hget, hnodeq] at h2
      exact h2
    rw [hstep, execLoop_single_success w e node nid _ hnodeq hsucc]
    refine ⟨ih1, ?_, ?_⟩
    · show alKeys (alSet (Graph.stepStateAt w e order k).results nid _) =
        order.take (k + 1)
      rw [alSet_fresh _ _ _ (alGet_eq_none_iff _ _ |>.mpr (by
        rw [ih2]
        exact hnidtake))]
      rw [htake, ← ih2]
      simp [alKeys]
    · intro nid2 hnid2
      have hne : nid ≠ nid2 := by
        intro heq
        exact hnid2 (heq ▸ (htake ▸ List.mem_append.mpr (Or.inr (by simp))))
      show alGet (alSet (Graph.stepStateAt w e order k).statuses nid _) nid2 = _
      rw [alGet_alSet_ne _ _ _ _ hne]
      exact ih3 nid2 (fun hmem => hnid2 (htake ▸ List.mem_append.mpr (Or.inl hmem)))

/-- C3: with the default stop-on-error policy, when the first `k` nodes of
the execution order succeed and the node at position `k` fails, the run's
status is error, the result map holds exactly the nodes up to and including
the failing one, and every node after the failing one is never executed
(its status is still idle). -/
theorem claim_C3 (w : Graph.Workflow) (execId : String) (order : List String)
    (k : Nat)
    (hvw : Graph.validateWorkflow w = .ok ())
    (hord : Graph.getExecutionOrder w = .ok order)
    (hnodes : ∀ nid ∈ order, nid ∈ alKeys w.nodes)
    (hnd : order.Nodup)
    (hk : k < order.length)
    (hok : ∀ j, j < k → Graph.stepOk w execId order j = true)
    (hfail : Graph.stepOk w execId order k = false) :
    (Graph.executeWorkflow w execId).status = .error ∧
    alKeys (Graph.executeWorkflow w execId).results = order.take (k + 1) ∧
    ∀ nid ∈ order.drop (k + 1),
      alGet (Graph.executeWorkflow w execId).nodeStatuses nid =
        some Graph.NodeStatus.idle := by
  have hrec : Graph.executeWorkflow w execId =
      { status :=
          if (Graph.execLoop w execId order (Graph.initialEngineState w)).stopped
          then .error else .completed,
        results :=
          (Graph.execLoop w execId order (Graph.initialEngineState w)).results,
        errors :=
          (Graph.execLoop w execId order (Graph.initialEngineState w)).errors,
        nodeStatuses :=
          (Graph.execLoop w execId order (Graph.initialEngineState w)).statuses } := by
    simp only [Graph.executeWorkflow, hvw, hord]
  obtain ⟨hstop, hkeys, hstat⟩ :=
    runPrefix w execId order hnodes hnd k (Nat.le_of_lt hk) hok
  obtain ⟨nid, hget⟩ : ∃ nid, order.get? k = some nid :=
    ⟨order.get ⟨k, hk⟩, List.get?_eq_get hk⟩
  have hmem_nid : nid ∈ order := List.get?_mem hget
  obtain ⟨node, hnodeq⟩ : ∃ node, alGet w.nodes nid = some node := by
    cases hh : alGet w.nodes nid with
    | none =>
      rw [alGet_eq_none_iff] at hh
      exact absurd (hnodes nid hmem_nid) hh
    | some node => exact ⟨node, rfl⟩
  have hget2 : order[k]? = some nid := by
    rw [← List.get?_eq_getElem?]
    exact hget
  have htake : order.take (k + 1) = order.take k ++ [nid] := by
    rw [List.take_succ, hget2]
    rfl
  have hdropk : order.drop k = nid :: order.drop (k + 1) := by
    rw [List.drop_eq_getElem_cons hk]
    have h2 := (List.getElem?_eq_getElem (l := order) hk).symm.trans hget2
    rw [Option.some.inj h2]
  have hnidtake : nid ∉ order.take k := by
    intro hmem
    have hnd2 : (order.take k ++ order.drop k).Nodup := by
      rw [List.take_append_drop]
      exact hnd
    rw [List.nodup_append] at hnd2
    exact hnd2.2.2 hmem (by rw [hdropk]; exact List.mem_cons_self _ _)
  have hfail2 : (Graph.stepNode w execId node nid
      (Graph.stepStateAt w execId order k)).1.success = false := by
    simp only [Graph.stepOk, hget, hnodeq] at hfail
    exact hfail
  have hA : Graph.execLoop w execId (order.take (k + 1))
      (Graph.initialEngineState w) =
      { results := alSet (Graph.stepStateAt w execId order k).results nid
          (Graph.stepNode w execId node nid
            (Graph.stepStateAt w execId order k)).1,
        prevResults := (Graph.stepStateAt w execId order k).prevResults,
        errors := (Graph.stepStateAt w execId order k).errors ++
          [(nid, ((Graph.stepNode w execId node nid
            (Graph.stepStateAt w execId order k)).1.error.getD ""))],
        statuses := alSet (Graph.stepStateAt w execId order k).statuses nid
          .error,
        stopped := true } := by
    rw [htake, execLoop_append w execId _ _ _ hstop]
    exact execLoop_single_failure w execId node nid _ hnodeq hfail2
  have hsplit : Graph.execLoop w execId order (Graph.initialEngineState w) =
      Graph.execLoop w execId (order.take (k + 1))
        (Graph.initialEngineState w) := by
    conv_lhs => rw [← List.take_append_drop (k + 1) order]
    exact execLoop_stopped_append w execId _ _ _ rfl (by rw [hA])
  refine ⟨?_, ?_, ?_⟩
  · rw [hrec]
    show (if (Graph.execLoop w execId order
        (Graph.initialEngineState w)).stopped then Graph.RunStatus.error
      else Graph.RunStatus.completed) = Graph.RunStatus.error
    rw [hsplit, hA]
    rfl
  · rw [hrec]
    show alKeys (Graph.execLoop w execId order
      (Graph.initialEngineState w)).results = order.take (k + 1)
    rw [hsplit, hA]
    show alKeys (alSet (Graph.stepStateAt w execId order k).results nid _) =
      order.take (k + 1)
    rw [alSet_fresh _ _ _ (alGet_eq_none_iff _ _ |>.mpr (by
      rw [hkeys]
      exact hnidtake))]
    rw [htake, ← hkeys]
    simp [alKeys]
  · intro nid2 hnid2
    have hmem2 : nid2 ∈ order := List.mem_of_mem_drop hnid2
    have hne : nid ≠ nid2 := by
      intro heq
      have hnd2 : (order.take (k + 1) ++ order.drop (k + 1)).Nodup := by
        rw [List.take_append_drop]
        exact hnd
      rw [List.nodup_append] at hnd2
      exact hnd2.2.2 (htake ▸ List.mem_append.mpr (Or.inr (by simp)))
        (heq ▸ hnid2)
    have hnottake : nid2 ∉ order.take k := by
      intro hmem
      have hnd2 : (order.take k ++ order.drop k).Nodup := by
        rw [List.take_append_drop]
        exact hnd
      rw [List.nodup_append] at hnd2
      exact hnd2.2.2 hmem (by
        rw [hdropk]
        exact List.mem_cons.mpr (Or.inr hnid2))
    rw [hrec]
    show alGet (Graph.execLoop w execId order
      (Graph.initialEngineState w)).statuses nid2 = some Graph.NodeStatus.idle
    rw [hsplit, hA]
    show alGet (alSet (Graph.stepStateAt w execId order k).statuses nid _)
      nid2 = some Graph.NodeStatus.idle
    rw [alGet_alSet_ne _ _ _ _ hne, hstat nid2 hnottake]
    show alGet (w.nodes.map (fun p => (p.1, Graph.NodeStatus.idle))) nid2 =
      some Graph.NodeStatus.idle
    rw [alGet_map_const w.nodes Graph.NodeStatus.idle nid2]
    obtain ⟨node2, hn2⟩ : ∃ node2, alGet w.nodes nid2 = some node2 := by
      cases hh : alGet w.nodes nid2 with
      | none =>
        rw [alGet_eq_none_iff] at hh
        exact absurd (hnodes nid2 hmem2) hh
      | some node2 => exact ⟨node2, rfl⟩
    rw [hn2]
    rfl

/-- Witness for C3: in the linear workflow A → B → C where B fails, the run
errors, the result map holds exactly A and B, and C is never executed. -/
theorem claim_C3_witness :
    (Graph.executeWorkflow Fix.wfLinear "run1").status = .error ∧
    alKeys (Graph.executeWorkflow Fix.wfLinear "run1").results =
      (["A", "B", "C"] : List String).take 2 ∧
    ∀ nid ∈ (["A", "B", "C"] : List String).drop 2,
      alGet (Graph.executeWorkflow Fix.wfLinear "run1").nodeStatuses nid =
        some Graph.NodeStatus.idle := by
  have hvw : Graph.validateWorkflow Fix.wfLinear = .ok () := by
    simp +decide [Graph.validateWorkflow, Graph.validateConnection,
      Graph.wouldCreateCycle, Graph.dfsAll, Graph.visit, Graph.visitFold,
      Graph.successors, Graph.isInputCompatible, Graph.nodeIds, Fix.wfLinear,
      Fix.nodeA, Fix.nodeB, Fix.nodeC, Fix.connAB, Fix.connBC, Fix.mkGN,
      Fix.anyIn, Fix.anyOut, alValues, alKeys, alGet, alSet]
  exact claim_C3 Fix.wfLinear "run1" ["A", "B", "C"] 1 hvw (by rfl)
    (by decide) (by decide) (by decide)
    (fun j hj => by
      have hj0 : j = 0 := by omega
      rw [hj0]
      rfl)
    (by rfl)

end WV
